import Mathlib

/-!
Shallow embedding of the WhitespaceVM interpreter (tokenizer, parser with
two-pass label resolution, bytecode program, and the stack-machine VM),
translated from the Rust sources in `src/`, together with theorems checking
the specification's claims against it.

Conventions:
  * Rust `i64` values are modelled as `Int` together with explicit wrapping
    (`wrap64`) at the points where the Rust code can overflow; `usize` casts
    are modelled by reduction modulo `2^64`.
  * Rust panics (index out of bounds, arithmetic overflow in `/` and `%`,
    `unwrap` on `None`, `unreachable!`) are modelled by an explicit `fault`
    outcome, kept distinct from the structured error values the program
    itself produces.
  * The Rust parser's unbounded `loop`s are modelled with an explicit fuel
    parameter; the fuel supplied at each call site (`remaining tokens + 2`)
    strictly exceeds the number of iterations the loop can make, so the
    out-of-fuel constructor `spin` is unreachable from the public entry
    points.  Theorems about successful or failing parses are stated
    conditionally on the produced constructor and are insensitive to fuel.
  * The VM's stdout/stdin are modelled as an event list and a byte list in
    the machine state, with flags modelling whether the host I/O channel
    fails (Rust `io::Result` failure).
-/

namespace WhitespaceVM

set_option maxRecDepth 100000

/-- Two's-complement wrap of an integer into the signed 64-bit range,
modelling Rust release-mode (`wrapping`) `i64` arithmetic. -/
def wrap64 (x : Int) : Int := (x + 2 ^ 63) % 2 ^ 64 - 2 ^ 63

/-- The smallest `i64` value, `-2^63`. -/
def i64Min : Int := -(2 ^ 63)

/-- Rust `as usize` cast of an `i64`: two's-complement reinterpretation. -/
def usizeOfI64 (n : Int) : Nat := (n % 2 ^ 64).toNat

/-- `src/token.rs` — the three significant tokens. -/
inductive Token
  | Space
  | Tab
  | Newline
deriving DecidableEq, Repr

/-- `src/token.rs` `Tokens::next`, applied eagerly: turns the raw source
bytes into the token sequence, skipping insignificant bytes.  Each token is
annotated with the tokenizer's line counter *after* producing it (the
counter starts at 1 and is incremented exactly when a `Newline` token is
produced), which is the value `Tokens::line_no` returns once that token is
the most recently pulled one. -/
def tokenize : List Nat → Nat → List (Token × Nat)
  | [], _ => []
  | b :: rest, l =>
    if b = 32 then (Token.Space, l) :: tokenize rest l
    else if b = 9 then (Token.Tab, l) :: tokenize rest l
    else if b = 10 then (Token.Newline, l + 1) :: tokenize rest (l + 1)
    else tokenize rest l

/-- `src/program.rs` — the instruction set.  `Copy`/`Slide` carry `i64`
operands; `Push` carries a constant-pool index; the control-flow opcodes
carry a program counter (a placeholder `0` until backpatching). -/
inductive Instruction
  | Push (idx : Nat)
  | Dup
  | Copy (n : Int)
  | Swap
  | Pop
  | Slide (n : Int)
  | Add
  | Subtract
  | Multiply
  | Divide
  | Modulo
  | Store
  | Retrieve
  | Call (pc : Nat)
  | Jump (pc : Nat)
  | JumpIfZero (pc : Nat)
  | JumpIfNeg (pc : Nat)
  | Return
  | End
  | OutputChar
  | OutputNum
  | ReadChar
  | ReadNum
deriving DecidableEq, Repr

/-- Association-list lookup, modelling `HashMap::get`. -/
def assocGet : List (Nat × Nat) → Nat → Option Nat
  | [], _ => none
  | (k', v') :: rest, k => if k' = k then some v' else assocGet rest k

/-- Association-list insert with overwrite, modelling `HashMap::insert`
(a later insert for the same key replaces the earlier value). -/
def assocInsert : List (Nat × Nat) → Nat → Nat → List (Nat × Nat)
  | [], k, v => [(k, v)]
  | (k', v') :: rest, k, v =>
    if k' = k then (k, v) :: rest else (k', v') :: assocInsert rest k v

/-- `src/program.rs` `Program`: instructions, one source line per
instruction, the deduplicated constant pool, and the map from call-target
program counters to their originating label. -/
structure Program where
  instructions : List Instruction
  line_nos : List Nat
  constants : List Int
  sub_labels : List (Nat × Nat)
deriving DecidableEq, Repr

/-- `Iterator::position` on the constant pool: index of the first entry
equal to the probed constant. -/
def position (l : List Int) (c : Int) : Option Nat :=
  match l with
  | [] => none
  | x :: rest => if x = c then some 0 else (position rest c).map (· + 1)

/-- `Program::add_const`: return the index of the first pool entry equal to
the constant, appending the constant if absent. -/
def Program.add_const (p : Program) (c : Int) : Nat × Program :=
  match position p.constants c with
  | some idx => (idx, p)
  | none => (p.constants.length, { p with constants := p.constants ++ [c] })

/-- `src/parser/error.rs` `InstType` (the `Io` variant is rendered
`InOut` here). -/
inductive InstType
  | Stack
  | Heap
  | InOut
  | ControlFlow
  | Arithmetic
  | Unknown
deriving DecidableEq, Repr

/-- `src/parser/error.rs` `ErrorKind`. -/
inductive ErrorKind
  | LiteralOverflow
  | InvalidLiteral
  | InvalidInstruction (inst : InstType)
  | InvalidLabel
  | TooManyLabels
  | UnexpectedEof
deriving DecidableEq, Repr

/-- `src/parser/error.rs` `ParseError`: an error kind plus the source line
on which it was detected. -/
structure ParseError where
  kind : ErrorKind
  line_no : Nat
deriving DecidableEq, Repr

/-- `src/parser/label_map.rs` `LabelMap`: label to declaring program
counter, and jump-instruction index to referenced label. -/
structure LabelMap where
  pc_map : List (Nat × Nat)
  inst_list : List (Nat × Nat)
deriving DecidableEq, Repr

/-- Result of a parser subroutine: success, a parse error, or fuel
exhaustion (`spin`, unreachable with the fuel supplied by the callers). -/
inductive PRes (α : Type)
  | ok (a : α)
  | err (e : ParseError)
  | spin
deriving DecidableEq, Repr

instance : Monad PRes where
  pure := PRes.ok
  bind := fun x f =>
    match x with
    | .ok a => f a
    | .err e => .err e
    | .spin => .spin

/-- `src/parser/mod.rs` `Parser`: the pending token stream with the
tokenizer's line counter, the previous-token line number, the one-token
lookahead, the label map, and the program under construction. -/
structure PState where
  rest : List (Token × Nat)
  line : Nat
  prev_line_no : Nat
  curr : Option Token
  labels : LabelMap
  program : Program
deriving DecidableEq, Repr

/-- `Parser::get_next`: record the tokenizer's current line as
`prev_line_no`, then pull the next token into the lookahead. -/
def get_next (st : PState) : PState :=
  match st.rest with
  | [] => { st with prev_line_no := st.line, curr := none }
  | (t, l) :: r =>
    { st with prev_line_no := st.line, curr := some t, rest := r, line := l }

/-- `Parser::error`: a parse error at the tokenizer's current line. -/
def perror (st : PState) (kind : ErrorKind) : ParseError := ⟨kind, st.line⟩

/-- `Program::emit` as invoked through `Parser::emit`: append the
instruction, tagged with `prev_line_no`. -/
def emit (st : PState) (inst : Instruction) : PState :=
  { st with
    program :=
      { st.program with
        instructions := st.program.instructions ++ [inst]
        line_nos := st.program.line_nos ++ [st.prev_line_no] } }

/-- `Parser::get_next_two`: pull two tokens, erroring with `UnexpectedEof`
(at the line reached after both pulls) if either is missing. -/
def get_next_two (st : PState) : PRes ((Token × Token) × PState) :=
  let first := st.curr
  let st1 := get_next st
  let second := st1.curr
  let st2 := get_next st1
  match first, second with
  | some f, some s => .ok ((f, s), st2)
  | _, _ => .err (perror st2 .UnexpectedEof)

/-- Rust `i64::checked_shl`: fails only when the shift amount is at least
64; the shifted-out high bits are otherwise silently discarded. -/
def checked_shl (x : Int) (s : Nat) : Option Int :=
  if 64 ≤ s then none else some (wrap64 (x * 2 ^ s))

/-- Rust `usize::checked_shl`. -/
def checked_shl_usize (x : Nat) (s : Nat) : Option Nat :=
  if 64 ≤ s then none else some (x * 2 ^ s % 2 ^ 64)

/-- `num |= 1` on an `i64` bit pattern: set the lowest bit. -/
def orOne (x : Int) : Int := if x % 2 = 0 then x + 1 else x

/-- `label |= 1` on a `usize`. -/
def orOneNat (x : Nat) : Nat := if x % 2 = 0 then x + 1 else x

/-- The bit-accumulation loop of `Parser::get_number`: `Space` is a 0 bit,
`Tab` a 1 bit (both via `checked_shl` by 1 then or), `Newline` terminates,
anything else (end of stream) is `UnexpectedEof`. -/
def get_number_loop : Nat → PState → Int → PRes (Int × PState)
  | 0, _, _ => .spin
  | fuel + 1, st, num =>
    match st.curr with
    | some .Space =>
      match checked_shl num 1 with
      | some x => get_number_loop fuel (get_next st) x
      | none => .err (perror (get_next st) .LiteralOverflow)
    | some .Tab =>
      match checked_shl num 1 with
      | some x => get_number_loop fuel (get_next st) (orOne x)
      | none => .err (perror (get_next st) .LiteralOverflow)
    | some .Newline => .ok (num, get_next st)
    | none => .err (perror st .UnexpectedEof)

/-- `Parser::get_number`: a sign token (`Space` non-negative, `Tab`
negative) followed by the bit loop; the negation of the accumulator is the
wrapping Rust negation. -/
def get_number (st : PState) : PRes (Int × PState) :=
  match st.curr with
  | some .Space => do
    let (num, st') ← get_number_loop (st.rest.length + 2) (get_next st) 0
    pure (num, st')
  | some .Tab => do
    let (num, st') ← get_number_loop (st.rest.length + 2) (get_next st) 0
    pure (wrap64 (-num), st')
  | _ => .err (perror st .InvalidLiteral)

/-- The bit-accumulation loop of `Parser::get_label` (`usize`
accumulator, overflow of the shift is `TooManyLabels`). -/
def get_label_loop : Nat → PState → Nat → PRes (Nat × PState)
  | 0, _, _ => .spin
  | fuel + 1, st, label =>
    match st.curr with
    | some .Space =>
      match checked_shl_usize label 1 with
      | some x => get_label_loop fuel (get_next st) x
      | none => .err (perror (get_next st) .TooManyLabels)
    | some .Tab =>
      match checked_shl_usize label 1 with
      | some x => get_label_loop fuel (get_next st) (orOneNat x)
      | none => .err (perror (get_next st) .TooManyLabels)
    | some .Newline => .ok (label, get_next st)
    | none => .err (perror st .UnexpectedEof)

/-- `Parser::get_label`. -/
def get_label (st : PState) : PRes (Nat × PState) :=
  get_label_loop (st.rest.length + 2) st 0

/-- `Parser::get_stack_inst`. -/
def get_stack_inst (st : PState) : PRes PState :=
  match st.curr with
  | some .Space => do
    let (num, st1) ← get_number (get_next st)
    let (idx, prog) := st1.program.add_const num
    let st2 := { st1 with program := prog }
    pure (emit st2 (.Push idx))
  | _ => do
    let ((f, s), st1) ← get_next_two st
    match f, s with
    | .Tab, .Space => do
      let (num, st2) ← get_number st1
      pure (emit st2 (.Copy num))
    | .Tab, .Newline => do
      let (num, st2) ← get_number st1
      pure (emit st2 (.Slide num))
    | .Newline, .Space => pure (emit st1 .Dup)
    | .Newline, .Tab => pure (emit st1 .Swap)
    | .Newline, .Newline => pure (emit st1 .Pop)
    | _, _ => .err (perror st1 (.InvalidInstruction .Stack))

/-- `Parser::get_arith_inst`. -/
def get_arith_inst (st : PState) : PRes PState := do
  let ((f, s), st1) ← get_next_two st
  match f, s with
  | .Space, .Space => pure (emit st1 .Add)
  | .Space, .Tab => pure (emit st1 .Subtract)
  | .Space, .Newline => pure (emit st1 .Multiply)
  | .Tab, .Space => pure (emit st1 .Divide)
  | .Tab, .Tab => pure (emit st1 .Modulo)
  | _, _ => .err (perror st1 (.InvalidInstruction .Arithmetic))

/-- `Parser::get_heap_inst`. -/
def get_heap_inst (st : PState) : PRes PState :=
  match st.curr with
  | some .Space => .ok (emit (get_next st) .Store)
  | some .Tab => .ok (emit (get_next st) .Retrieve)
  | _ => .err (perror st (.InvalidInstruction .Heap))

/-- `Parser::get_io_inst`. -/
def get_io_inst (st : PState) : PRes PState := do
  let ((f, s), st1) ← get_next_two st
  match f, s with
  | .Space, .Space => pure (emit st1 .OutputChar)
  | .Space, .Tab => pure (emit st1 .OutputNum)
  | .Tab, .Space => pure (emit st1 .ReadChar)
  | .Tab, .Tab => pure (emit st1 .ReadNum)
  | _, _ => .err (perror st1 (.InvalidInstruction .InOut))

/-- `Parser::get_flow_inst`.  `Space Space` records a label declaration at
the current emitted-instruction count; the four jump/call forms record the
instruction index against the referenced label and emit a placeholder
target `0` (`UNINITIALIZED_JUMP_TARGET`). -/
def get_flow_inst (st : PState) : PRes PState := do
  let ((f, s), st1) ← get_next_two st
  match f, s with
  | .Space, .Space => do
    let (label, st2) ← get_label st1
    let pc := st2.program.instructions.length
    pure { st2 with
      labels := { st2.labels with pc_map := assocInsert st2.labels.pc_map label pc } }
  | .Space, .Tab => do
    let (label, st2) ← get_label st1
    let idx := st2.program.instructions.length
    let st3 := { st2 with
      labels := { st2.labels with inst_list := assocInsert st2.labels.inst_list idx label } }
    pure (emit st3 (.Call 0))
  | .Space, .Newline => do
    let (label, st2) ← get_label st1
    let idx := st2.program.instructions.length
    let st3 := { st2 with
      labels := { st2.labels with inst_list := assocInsert st2.labels.inst_list idx label } }
    pure (emit st3 (.Jump 0))
  | .Tab, .Space => do
    let (label, st2) ← get_label st1
    let idx := st2.program.instructions.length
    let st3 := { st2 with
      labels := { st2.labels with inst_list := assocInsert st2.labels.inst_list idx label } }
    pure (emit st3 (.JumpIfZero 0))
  | .Tab, .Tab => do
    let (label, st2) ← get_label st1
    let idx := st2.program.instructions.length
    let st3 := { st2 with
      labels := { st2.labels with inst_list := assocInsert st2.labels.inst_list idx label } }
    pure (emit st3 (.JumpIfNeg 0))
  | .Tab, .Newline => pure (emit st1 .Return)
  | .Newline, .Newline => pure (emit st1 .End)
  | _, _ => .err (perror st1 (.InvalidInstruction .ControlFlow))

/-- The body of the main loop of `Parser::parse`: dispatch on the first
one or two tokens of the next instruction.  When the lookahead is already
exhausted the state is returned unchanged (the loop's `break`). -/
def parse_iter (st : PState) : PRes PState :=
  match st.curr with
  | some .Space => get_stack_inst (get_next st)
  | some .Tab =>
    let st1 := get_next st
    match st1.curr with
    | some .Space => get_arith_inst (get_next st1)
    | some .Tab => get_heap_inst (get_next st1)
    | some .Newline => get_io_inst (get_next st1)
    | none => .err (perror st1 (.InvalidInstruction .Unknown))
  | some .Newline => get_flow_inst (get_next st)
  | none => .ok st

/-- The main loop of `Parser::parse`: iterate `parse_iter` until the
lookahead is exhausted. -/
def parse_loop : Nat → PState → PRes PState
  | 0, _ => .spin
  | fuel + 1, st =>
    match st.curr with
    | none => .ok st
    | some _ => do parse_loop fuel (← parse_iter st)

/-- Is this opcode one of the four backpatched control-transfer opcodes? -/
def jump_family : Instruction → Bool
  | .Call _ => true
  | .Jump _ => true
  | .JumpIfZero _ => true
  | .JumpIfNeg _ => true
  | _ => false

/-- Is this opcode a `Call`? -/
def is_call : Instruction → Bool
  | .Call _ => true
  | _ => false

/-- Rewrite the target of a control-transfer opcode. -/
def retarget : Instruction → Nat → Instruction
  | .Call _, pc => .Call pc
  | .Jump _, pc => .Jump pc
  | .JumpIfZero _, pc => .JumpIfZero pc
  | .JumpIfNeg _, pc => .JumpIfNeg pc
  | i, _ => i

/-- Outcome of the backpatch pass: a resolved program, a parse error, or a
host-level fault (the `unreachable!`/index panics of `Parser::patch_jumps`,
never reached from `parse`). -/
inductive PatchResult
  | ok (p : Program)
  | err (e : ParseError)
  | fault
deriving DecidableEq, Repr

/-- `Parser::patch_jumps`: for every recorded (instruction index, label)
pair, resolve the label's declared program counter and rewrite the
placeholder target; an undeclared label is `InvalidLabel` at the line of
the referencing instruction; a `Call` additionally records the
label-association entry for the target. -/
def patch_jumps_loop : List (Nat × Nat) → List (Nat × Nat) → Program → PatchResult
  | [], _, prog => .ok prog
  | (idx, label) :: rest, pc_map, prog =>
    match prog.instructions[idx]? with
    | none => .fault
    | some inst =>
      match assocGet pc_map label with
      | none =>
        match prog.line_nos[idx]? with
        | some line => .err ⟨.InvalidLabel, line⟩
        | none => .fault
      | some pc =>
        if jump_family inst then
          let prog1 := { prog with instructions := prog.instructions.set idx (retarget inst pc) }
          let prog2 :=
            if is_call inst then
              { prog1 with sub_labels := assocInsert prog1.sub_labels pc label }
            else prog1
          patch_jumps_loop rest pc_map prog2
        else .fault

/-- Overall result of `Parser::parse`. -/
inductive ParseResult
  | ok (p : Program)
  | err (e : ParseError)
  | fault
  | spin
deriving DecidableEq, Repr

/-- The parser state `Parser::new` builds from the source bytes. -/
def init_pstate (src : List Nat) : PState :=
  { rest := tokenize src 1
    line := 1
    prev_line_no := 1
    curr := none
    labels := ⟨[], []⟩
    program := ⟨[], [], [], []⟩ }

/-- The parser state after the main loop of `Parser::parse`, before
backpatching. -/
def parse_state (src : List Nat) : PRes PState :=
  let st0 := get_next (init_pstate src)
  parse_loop (st0.rest.length + 2) st0

/-- `Parser::parse`: run the main loop, then backpatch. -/
def parse (src : List Nat) : ParseResult :=
  match parse_state src with
  | .spin => .spin
  | .err e => .err e
  | .ok st =>
    match patch_jumps_loop st.labels.inst_list st.labels.pc_map st.program with
    | .ok p => .ok p
    | .err e => .err e
    | .fault => .fault

/-- `src/vm/error.rs` `RuntimeError`. -/
inductive RuntimeError
  | ZeroDivision
  | InvalidHeapEntry
  | IoErr
  | NumParseError
  | StackUnderflow
deriving DecidableEq, Repr

/-- `src/vm/error.rs` `TraceEntry`: a source line and the optional
subroutine label of one call frame. -/
structure TraceEntry where
  line_no : Nat
  label : Option Nat
deriving DecidableEq, Repr

/-- `src/vm/error.rs` `Traceback`. -/
structure Traceback where
  stack : List TraceEntry
  reason : RuntimeError
deriving DecidableEq, Repr

/-- `src/vm/frame.rs` `CallFrame`. -/
structure CallFrame where
  pc : Nat
  label : Option Nat
deriving DecidableEq, Repr

/-- One stdout event: a character (low byte) or a decimal number. -/
inductive OutEvent
  | char (b : Nat)
  | num (n : Int)
deriving DecidableEq, Repr

/-- Association list over `i64` keys, modelling the VM heap
(`HashMap<i64, i64>`). -/
def heapGet : List (Int × Int) → Int → Option Int
  | [], _ => none
  | (k', v') :: rest, k => if k' = k then some v' else heapGet rest k

/-- `HashMap::insert` on the heap: overwrite any prior entry. -/
def heapInsert : List (Int × Int) → Int → Int → List (Int × Int)
  | [], k, v => [(k, v)]
  | (k', v') :: rest, k, v =>
    if k' = k then (k, v) :: rest else (k', v') :: heapInsert rest k v

/-- `src/vm/mod.rs` `Vm` state: the operand stack (head is the top), the
call-frame stack (head is the innermost frame; Rust pushes frames at the
end of its `Vec`), the heap, the program, and the modelled I/O world. -/
structure VmState where
  stack : List Int
  call_stack : List CallFrame
  heap : List (Int × Int)
  program : Program
  stdin : List Nat
  stdinOk : Bool
  output : List OutEvent
  stdoutOk : Bool
deriving DecidableEq, Repr

/-- The entry-building loop of `Vm::runtime_error`: one trace entry per
frame, each carrying `Program::line_at(frame.pc)` and the frame's label;
`none` when some frame's program counter is out of range for the line
table (in which case the Rust code panics instead of building the
traceback). -/
def traceEntries (lines : List Nat) : List CallFrame → Option (List TraceEntry)
  | [] => some []
  | f :: fs =>
    match lines[f.pc]? with
    | none => none
    | some l => (traceEntries lines fs).map (fun es => ⟨l, f.label⟩ :: es)

/-- `Vm::runtime_error`: trace entries for the live call frames, outermost
(top-level) first. -/
def mkTraceback (s : VmState) (reason : RuntimeError) : Option Traceback :=
  (traceEntries s.program.line_nos s.call_stack.reverse).map (fun entries => ⟨entries, reason⟩)

/-- Outcome of executing one instruction: continue in a new state, halt
normally, abort with a traceback (the state at the moment of failure is
carried alongside), or a host-level fault (Rust panic). -/
inductive StepOut
  | ok (s : VmState)
  | done
  | err (tb : Traceback) (s : VmState)
  | fault
deriving DecidableEq, Repr

/-- Raise a runtime error from the given machine state: build the
traceback, or fault if its construction panics. -/
def rerr (s : VmState) (reason : RuntimeError) : StepOut :=
  match mkTraceback s reason with
  | some tb => .err tb s
  | none => .fault

/-- `read_line` on the modelled stdin: everything up to and including the
first newline byte (or all remaining bytes at end of input). -/
def read_line : List Nat → List Nat × List Nat
  | [] => ([], [])
  | b :: rest =>
    if b = 10 then ([10], rest)
    else
      let (l, r) := read_line rest
      (b :: l, r)

/-- Is this byte ASCII whitespace (as trimmed by Rust `str::trim_end`)? -/
def is_ws (b : Nat) : Bool := b = 32 || b = 9 || b = 10 || b = 13 || b = 11 || b = 12

/-- `str::trim_end` on a byte list. -/
def trim_end (l : List Nat) : List Nat := ((l.reverse).dropWhile is_ws).reverse

/-- Rust `str::parse::<i64>`: optional `+`/`-` sign, then at least one
decimal digit, and the value must fit in the signed 64-bit range. -/
def parse_i64 (cs : List Nat) : Option Int :=
  match cs with
  | [] => none
  | c :: rest =>
    let neg := c = 45
    let ds := if c = 43 || c = 45 then rest else cs
    if ds.isEmpty then none
    else if ds.all (fun d => decide (48 ≤ d ∧ d ≤ 57)) then
      let v : Nat := ds.foldl (fun acc d => acc * 10 + (d - 48)) 0
      let n : Int := if neg then -(v : Int) else (v : Int)
      if -(2 ^ 63) ≤ n ∧ n ≤ 2 ^ 63 - 1 then some n else none
    else none

/-- The body of the `match` in `Vm::run`, executing one already-fetched
instruction (the current frame's program counter has already been
advanced past it).  Each arm mirrors the Rust arm, including the order of
pops, the placement of error checks between them, and the panics. -/
def exec_inst (s : VmState) : Instruction → StepOut
  | .Push idx =>
    match s.program.constants[idx]? with
    | some c => .ok { s with stack := c :: s.stack }
    | none => .fault
  | .Dup =>
    match s.stack with
    | x :: _ => .ok { s with stack := x :: s.stack }
    | [] => rerr s .StackUnderflow
  | .Copy n =>
    let idx := usizeOfI64 n
    if s.stack.length < idx then rerr s .StackUnderflow
    else
      match s.stack[idx]? with
      | some v => .ok { s with stack := v :: s.stack }
      | none => .fault
  | .Swap =>
    match s.stack with
    | b :: a :: rest => .ok { s with stack := a :: b :: rest }
    | _ => rerr s .StackUnderflow
  | .Pop =>
    match s.stack with
    | _ :: rest => .ok { s with stack := rest }
    | [] => rerr s .StackUnderflow
  | .Slide n =>
    let idx := usizeOfI64 n
    if s.stack.length < idx + 1 then rerr s .StackUnderflow
    else
      match s.stack with
      | top :: rest => .ok { s with stack := top :: rest.drop idx }
      | [] => .fault
  | .Add =>
    match s.stack with
    | r :: l :: rest => .ok { s with stack := wrap64 (l + r) :: rest }
    | [_] => rerr { s with stack := [] } .StackUnderflow
    | [] => rerr s .StackUnderflow
  | .Subtract =>
    match s.stack with
    | r :: l :: rest => .ok { s with stack := wrap64 (l - r) :: rest }
    | [_] => rerr { s with stack := [] } .StackUnderflow
    | [] => rerr s .StackUnderflow
  | .Multiply =>
    match s.stack with
    | r :: l :: rest => .ok { s with stack := wrap64 (l * r) :: rest }
    | [_] => rerr { s with stack := [] } .StackUnderflow
    | [] => rerr s .StackUnderflow
  | .Divide =>
    match s.stack with
    | r :: rest =>
      if r = 0 then rerr { s with stack := rest } .ZeroDivision
      else
        match rest with
        | l :: rest' =>
          if l = i64Min ∧ r = -1 then .fault
          else .ok { s with stack := Int.tdiv l r :: rest' }
        | [] => rerr { s with stack := [] } .StackUnderflow
    | [] => rerr s .StackUnderflow
  | .Modulo =>
    match s.stack with
    | r :: rest =>
      if r = 0 then rerr { s with stack := rest } .ZeroDivision
      else
        match rest with
        | l :: rest' =>
          if l = i64Min ∧ r = -1 then .fault
          else .ok { s with stack := Int.tmod l r :: rest' }
        | [] => rerr { s with stack := [] } .StackUnderflow
    | [] => rerr s .StackUnderflow
  | .Store =>
    match s.stack with
    | v :: a :: rest => .ok { s with stack := rest, heap := heapInsert s.heap a v }
    | [_] => rerr { s with stack := [] } .StackUnderflow
    | [] => rerr s .StackUnderflow
  | .Retrieve =>
    match s.stack with
    | a :: rest =>
      match heapGet s.heap a with
      | some v => .ok { s with stack := v :: rest }
      | none => rerr { s with stack := rest } .InvalidHeapEntry
    | [] => rerr s .StackUnderflow
  | .Call pc =>
    match assocGet s.program.sub_labels pc with
    | some label => .ok { s with call_stack := ⟨pc, some label⟩ :: s.call_stack }
    | none => .fault
  | .Jump pc =>
    match s.call_stack with
    | f :: fs => .ok { s with call_stack := { f with pc := pc } :: fs }
    | [] => .fault
  | .JumpIfZero pc =>
    match s.stack with
    | c :: rest =>
      if c = 0 then
        match s.call_stack with
        | f :: fs => .ok { s with stack := rest, call_stack := { f with pc := pc } :: fs }
        | [] => .fault
      else .ok { s with stack := rest }
    | [] => rerr s .StackUnderflow
  | .JumpIfNeg pc =>
    match s.stack with
    | c :: rest =>
      if c < 0 then
        match s.call_stack with
        | f :: fs => .ok { s with stack := rest, call_stack := { f with pc := pc } :: fs }
        | [] => .fault
      else .ok { s with stack := rest }
    | [] => rerr s .StackUnderflow
  | .Return =>
    match s.call_stack with
    | _ :: g :: r => .ok { s with call_stack := g :: r }
    | _ => .done
  | .End => .done
  | .OutputChar =>
    match s.stack with
    | c :: rest =>
      let s' := { s with stack := rest, output := s.output ++ [.char (c % 256).toNat] }
      if s.stdoutOk then .ok s' else rerr s' .IoErr
    | [] => rerr s .StackUnderflow
  | .OutputNum =>
    match s.stack with
    | n :: rest =>
      let s' := { s with stack := rest, output := s.output ++ [.num n] }
      if s.stdoutOk then .ok s' else rerr s' .IoErr
    | [] => rerr s .StackUnderflow
  | .ReadChar =>
    match s.stack with
    | a :: rest =>
      if s.stdinOk then
        match s.stdin with
        | b :: bs =>
          .ok { s with stack := rest, stdin := bs, heap := heapInsert s.heap a (Int.ofNat (b % 256)) }
        | [] => rerr { s with stack := rest } .IoErr
      else rerr { s with stack := rest } .IoErr
    | [] => rerr s .StackUnderflow
  | .ReadNum =>
    match s.stack with
    | a :: rest =>
      if s.stdinOk then
        let (ln, remaining) := read_line s.stdin
        match parse_i64 (trim_end ln) with
        | some n =>
          .ok { s with stack := rest, stdin := remaining, heap := heapInsert s.heap a n }
        | none => rerr { s with stack := rest, stdin := remaining } .NumParseError
      else rerr { s with stack := rest } .IoErr
    | [] => rerr s .StackUnderflow

/-- One iteration of the `loop` in `Vm::run`: read the current frame's
program counter (faulting if the frame stack is empty or the counter is
past the end of the instruction list), advance it, and execute the fetched
instruction. -/
def step (s : VmState) : StepOut :=
  match s.call_stack with
  | [] => .fault
  | f :: fs =>
    match s.program.instructions[f.pc]? with
    | none => .fault
    | some inst => exec_inst { s with call_stack := { f with pc := f.pc + 1 } :: fs } inst

/-- Final outcome of a run: normal termination, a traceback, a host-level
fault, or out of fuel. -/
inductive RunOutcome
  | done
  | tb (t : Traceback)
  | fault
  | spin
deriving DecidableEq, Repr

/-- The `loop` of `Vm::run`, driven by fuel. -/
def run_loop : Nat → VmState → RunOutcome
  | 0, _ => .spin
  | fuel + 1, s =>
    match step s with
    | .ok s' => run_loop fuel s'
    | .done => .done
    | .err tb _ => .tb tb
    | .fault => .fault

/-- The state `Vm::new` plus the start of `Vm::run` build: empty stack and
heap, a single top-level frame at program counter 0. -/
def init_vm (p : Program) (stdin : List Nat) : VmState :=
  { stack := []
    call_stack := [⟨0, none⟩]
    heap := []
    program := p
    stdin := stdin
    stdinOk := true
    output := []
    stdoutOk := true }

/-- `Vm::run` on a program with the given stdin, bounded by fuel. -/
def vm_run (p : Program) (stdin : List Nat) (fuel : Nat) : RunOutcome :=
  run_loop fuel (init_vm p stdin)

/-- The stack-consuming opcodes named by the specification. -/
def stack_consuming : Instruction → Bool
  | .Dup | .Copy _ | .Swap | .Pop | .Slide _ => true
  | .Add | .Subtract | .Multiply | .Divide | .Modulo => true
  | .Store | .Retrieve | .JumpIfZero _ | .JumpIfNeg _ => true
  | .OutputChar | .OutputNum | .ReadChar | .ReadNum => true
  | _ => false

/-- The opcodes that validate the stack (length check or peek) before
mutating anything. -/
def upfront_checked : Instruction → Bool
  | .Dup | .Copy _ | .Swap | .Slide _ => true
  | _ => false

/-- Every live frame's program counter is within the line-number table
(so `Vm::runtime_error` can build a traceback without panicking). -/
def frames_ok (s : VmState) : Prop :=
  ∀ f ∈ s.call_stack, f.pc < s.program.line_nos.length

/-- The source line on which the parser's lookahead token sits (for an
exhausted stream, the final line counter).  A `Newline` lookahead's line is
one less than the counter, which was already advanced when the token was
pulled. -/
def lookahead_line (st : PState) : Nat :=
  if st.curr = some Token.Newline then st.line - 1 else st.line

/-- Well-formedness of an annotated token stream with respect to a current
line counter: each token's annotation is the counter unchanged, or
advanced by one for a `Newline`.  `tokenize` produces such streams. -/
def stream_wf : Nat → List (Token × Nat) → Bool
  | _, [] => true
  | l, (t, l') :: rest =>
    if l' = (if t = Token.Newline then l + 1 else l) then stream_wf l' rest else false

/-- The parser-state invariant maintained by the main parse loop: the
constant pool has no duplicates, every emitted `Push` index is within the
pool, instruction and line tables have equal length, the recorded
jump-site indices are distinct, and each of them holds a control-transfer
instruction. -/
def parser_inv (st : PState) : Prop :=
  st.program.constants.Nodup ∧
  (∀ idx, Instruction.Push idx ∈ st.program.instructions → idx < st.program.constants.length) ∧
  st.program.instructions.length = st.program.line_nos.length ∧
  (st.labels.inst_list.map Prod.fst).Nodup ∧
  (∀ e ∈ st.labels.inst_list,
    ∃ inst, st.program.instructions[e.1]? = some inst ∧ jump_family inst = true)

/-- The empty program. -/
def trivProg : Program := ⟨[], [], [], []⟩

/-- Source of specification scenario 4 with a final `End`:
push 10; push 0; divide; end. -/
def divSrc : List Nat :=
  [32, 32, 32, 9, 32, 9, 32, 10, 32, 32, 32, 10, 9, 32, 9, 32, 10, 10, 10]

/-- The program `divSrc` parses to. -/
def divProg : Program :=
  ⟨[.Push 0, .Push 1, .Divide, .End], [2, 3, 3, 6], [10, 0], []⟩

/-- Source of specification scenario 4 taken literally: push 10; push 0;
divide — and nothing after the divide. -/
def divNoEndSrc : List Nat :=
  [32, 32, 32, 9, 32, 9, 32, 10, 32, 32, 32, 10, 9, 32, 9, 32]

/-- The program `divNoEndSrc` parses to. -/
def divNoEndProg : Program :=
  ⟨[.Push 0, .Push 1, .Divide], [2, 3, 3], [10, 0], []⟩

/-- A machine state mid-run over `divProg` (program counter already
advanced past the `Divide` at index 2) with the given operand stack. -/
def vmSt (stk : List Int) : VmState :=
  { stack := stk
    call_stack := [⟨3, none⟩]
    heap := []
    program := divProg
    stdin := []
    stdinOk := true
    output := []
    stdoutOk := true }

/-- The number literal `+` `1` `0`^63 followed by the terminator, as a
`Push` instruction: bytes for `S S S T` then 63 `S` then `L`. -/
def c3src : List Nat := [32, 32, 32, 9] ++ List.replicate 63 32 ++ [10]

/-- A one-instruction source whose number literal ends in a line
terminator: `S S S L` (push 0), entirely on line 1. -/
def c4Src : List Nat := [32, 32, 32, 10]

/-- The parser state at the top of the first loop iteration for `c4Src`. -/
def c4St : PState := get_next (init_pstate c4Src)

/-- The parser state after the first loop iteration for `c4Src`. -/
def c4Out : PState :=
  match parse_iter c4St with
  | .ok st => st
  | _ => c4St

/-- A source declaring label 0 and then jumping to it: `L S S L` then
`L S L L`. -/
def c5Src : List Nat := [10, 32, 32, 10, 10, 32, 10, 10]

/-- A source jumping to a label that is never declared: `L S L L`. -/
def c5BadSrc : List Nat := [10, 32, 10, 10]

/-- The parser state after the main loop for `c5Src`. -/
def c5L : PState :=
  match parse_state c5Src with
  | .ok st => st
  | _ => init_pstate c5Src

/-- The program `c5Src` parses to. -/
def c5P : Program :=
  match parse c5Src with
  | .ok p => p
  | _ => trivProg

/-- The parser state after the main loop for `c5BadSrc`. -/
def c5BadL : PState :=
  match parse_state c5BadSrc with
  | .ok st => st
  | _ => init_pstate c5BadSrc

/-- The program `c4Src` parses to. -/
def c9P : Program := ⟨[.Push 0], [2], [0], []⟩

/-! ### Helper lemmas about the VM's error construction -/

theorem rerr_inv {s : VmState} {r : RuntimeError} {tb : Traceback} {s' : VmState}
    (h : rerr s r = .err tb s') : s' = s ∧ mkTraceback s r = some tb := by
  unfold rerr at h
  split at h
  next tb2 hmk =>
    simp only [StepOut.err.injEq] at h
    exact ⟨h.2.symm, h.1 ▸ hmk⟩
  next => exact absurd h (by simp)

theorem traceEntries_spec {lines : List Nat} :
    ∀ {fs : List CallFrame} {es : List TraceEntry}, traceEntries lines fs = some es →
      es.length = fs.length ∧
      ∀ (j : Nat) (f : CallFrame), fs[j]? = some f →
        ∃ l, lines[f.pc]? = some l ∧ es[j]? = some ⟨l, f.label⟩ := by
  intro fs
  induction fs with
  | nil =>
    intro es h
    simp only [traceEntries, Option.some.injEq] at h
    subst h
    exact ⟨rfl, by simp⟩
  | cons f fs ih =>
    intro es h
    unfold traceEntries at h
    split at h
    next => exact absurd h (by simp)
    next l hl =>
      obtain ⟨es', hes', rfl⟩ := Option.map_eq_some'.mp h
      obtain ⟨hlen, hspec⟩ := ih hes'
      refine ⟨by simp [hlen], ?_⟩
      intro j g hj
      cases j with
      | zero =>
        simp only [List.getElem?_cons_zero, Option.some.injEq] at hj
        subst hj
        exact ⟨l, hl, by simp⟩
      | succ j =>
        simp only [List.getElem?_cons_succ] at hj ⊢
        exact hspec j g hj

theorem mkTraceback_spec {s : VmState} {r : RuntimeError} {tb : Traceback}
    (h : mkTraceback s r = some tb) :
    tb.reason = r ∧ tb.stack.length = s.call_stack.length ∧
    ∀ (j : Nat) (f : CallFrame), s.call_stack.reverse[j]? = some f →
      ∃ l, s.program.line_nos[f.pc]? = some l ∧ tb.stack[j]? = some ⟨l, f.label⟩ := by
  unfold mkTraceback at h
  obtain ⟨es, hes, rfl⟩ := Option.map_eq_some'.mp h
  obtain ⟨hlen, hspec⟩ := traceEntries_spec hes
  exact ⟨rfl, by simpa using hlen, hspec⟩

theorem traceEntries_total {lines : List Nat} :
    ∀ {fs : List CallFrame}, (∀ f ∈ fs, f.pc < lines.length) →
      ∃ es, traceEntries lines fs = some es := by
  intro fs
  induction fs with
  | nil => intro _; exact ⟨[], rfl⟩
  | cons f fs ih =>
    intro h
    obtain ⟨es, hes⟩ := ih (fun g hg => h g (List.mem_cons_of_mem _ hg))
    have hf : f.pc < lines.length := h f (List.mem_cons_self _ _)
    refine ⟨⟨lines[f.pc], f.label⟩ :: es, ?_⟩
    unfold traceEntries
    rw [List.getElem?_eq_getElem hf, hes]
    rfl

theorem mkTraceback_total {s : VmState} (r : RuntimeError) (h : frames_ok s) :
    ∃ tb, mkTraceback s r = some tb ∧ tb.reason = r := by
  obtain ⟨es, hes⟩ :=
    traceEntries_total (fun f hf => h f (List.mem_reverse.mp hf))
  refine ⟨⟨es, r⟩, ?_, rfl⟩
  unfold mkTraceback
  rw [hes]
  rfl

theorem rerr_total {s : VmState} (r : RuntimeError) (h : frames_ok s) :
    ∃ tb, rerr s r = .err tb s ∧ tb.reason = r := by
  obtain ⟨tb, htb, hr⟩ := mkTraceback_total r h
  refine ⟨tb, ?_, hr⟩
  unfold rerr
  rw [htb]

/-- Master inversion lemma for runtime errors: whenever executing an
instruction aborts with a traceback, the program, call stack, and heap are
untouched; the operand stack is the original one with at most the
already-popped operands removed from the top; the traceback was built by
`mkTraceback` on the carried state; and the opcodes with an upfront length
check or peek leave the stack exactly unchanged. -/
theorem exec_err_shape {s : VmState} {i : Instruction} {tb : Traceback} {s' : VmState}
    (h : exec_inst s i = .err tb s') :
    s'.program = s.program ∧ s'.call_stack = s.call_stack ∧ s'.heap = s.heap ∧
    (∃ k, k ≤ 2 ∧ s'.stack = s.stack.drop k) ∧
    (∃ r, mkTraceback s' r = some tb) ∧
    (upfront_checked i = true → s'.stack = s.stack) := by
  cases i <;> simp only [exec_inst] at h <;> repeat' split at h
  all_goals
    first
      | exact absurd h (by simp)
      | (obtain ⟨rfl, hmk⟩ := rerr_inv h
         refine ⟨rfl, rfl, rfl, ?_, ⟨_, hmk⟩, fun _ => rfl⟩
         exact ⟨0, by omega, rfl⟩)
      | (obtain ⟨rfl, hmk⟩ := rerr_inv h
         refine ⟨rfl, rfl, rfl, ?_, ⟨_, hmk⟩, fun hu => by simp [upfront_checked] at hu⟩
         simp_all
         omega)
      | (obtain ⟨rfl, hmk⟩ := rerr_inv h
         refine ⟨rfl, rfl, rfl, ?_, ⟨_, hmk⟩, fun hu => by simp [upfront_checked] at hu⟩
         exact ⟨1, by omega, by simp_all⟩)

/-- C2 (corrected): whenever a stack-consuming opcode aborts with a
runtime error, the heap is exactly as it was and the operand stack is the
original stack with at most the operands popped before the failure (never
more than two) removed from the top; the opcodes that validate before
mutating (`Dup`, `Copy`, `Swap`, `Slide`) leave the stack exactly
unchanged. -/
theorem C2_error_preserves_heap_and_popped_prefix {s : VmState} {i : Instruction}
    {tb : Traceback} {s' : VmState} (_hsc : stack_consuming i = true)
    (h : exec_inst s i = .err tb s') :
    s'.heap = s.heap ∧ (∃ k, k ≤ 2 ∧ s'.stack = s.stack.drop k) ∧
    (upfront_checked i = true → s'.stack = s.stack) := by
  obtain ⟨_, _, hh, hk, _, hu⟩ := exec_err_shape h
  exact ⟨hh, hk, hu⟩

/-- C2 witness: `Pop` on an empty stack underflows with heap and stack
untouched. -/
theorem C2_witness :
    stack_consuming Instruction.Pop = true ∧
    ((vmSt []).heap = (vmSt []).heap ∧
      (∃ k, k ≤ 2 ∧ (vmSt []).stack = (vmSt []).stack.drop k) ∧
      (upfront_checked Instruction.Pop = true → (vmSt []).stack = (vmSt []).stack)) :=
  ⟨by decide,
    C2_error_preserves_heap_and_popped_prefix (by decide)
      (by decide :
        exec_inst (vmSt []) Instruction.Pop =
          .err ⟨[⟨6, none⟩], .StackUnderflow⟩ (vmSt []))⟩

/-- C2 counterexample: `Add` on the one-element stack `[5]` underflows,
but the element has already been popped — the stack at the moment of the
error is `[]`, not `[5]`, refuting "the operand stack ... exactly as it
was". -/
theorem C2_counterexample :
    exec_inst (vmSt [5]) Instruction.Add =
      .err ⟨[⟨6, none⟩], .StackUnderflow⟩ (vmSt []) ∧
    (vmSt []).stack ≠ (vmSt [5]).stack := by
  exact ⟨by decide, by decide⟩

/-- C6 (corrected): whenever executing an instruction aborts with a
traceback, the traceback has exactly one entry per live call frame,
ordered outermost first, each carrying the line number of the instruction
the frame's program counter points at and the frame's label; and the
specification's divide-by-zero scenario, with an `End` following the
`Divide` so every frame's counter stays within the line table, produces a
`ZeroDivision` traceback containing exactly the top-level frame. -/
theorem C6_traceback_shape :
    (∀ (s : VmState) (i : Instruction) (tb : Traceback) (s' : VmState),
      exec_inst s i = .err tb s' →
      tb.stack.length = s.call_stack.length ∧
      ∀ (j : Nat) (f : CallFrame), s.call_stack.reverse[j]? = some f →
        ∃ l, s.program.line_nos[f.pc]? = some l ∧ tb.stack[j]? = some ⟨l, f.label⟩) ∧
    parse divSrc = .ok divProg ∧
    vm_run divProg [] 10 = .tb ⟨[⟨6, none⟩], .ZeroDivision⟩ := by
  refine ⟨?_, by decide, by decide⟩
  intro s i tb s' h
  obtain ⟨hp, hcs, _, _, ⟨r, hmk⟩, _⟩ := exec_err_shape h
  obtain ⟨_, hlen, hspec⟩ := mkTraceback_spec hmk
  rw [hcs] at hlen hspec
  rw [hp] at hspec
  exact ⟨hlen, hspec⟩

/-- C6 witness: a concrete `ZeroDivision` error whose traceback has one
entry, for the single live top-level frame, carrying that frame's line. -/
theorem C6_witness :
    (⟨[⟨6, none⟩], .ZeroDivision⟩ : Traceback).stack.length =
      (vmSt [0, 9]).call_stack.length ∧
    ∀ (j : Nat) (f : CallFrame), (vmSt [0, 9]).call_stack.reverse[j]? = some f →
      ∃ l, (vmSt [0, 9]).program.line_nos[f.pc]? = some l ∧
        (⟨[⟨6, none⟩], .ZeroDivision⟩ : Traceback).stack[j]? = some ⟨l, f.label⟩ :=
  C6_traceback_shape.1 (vmSt [0, 9]) Instruction.Divide _ (vmSt [9])
    (by decide :
      exec_inst (vmSt [0, 9]) Instruction.Divide =
        .err ⟨[⟨6, none⟩], .ZeroDivision⟩ (vmSt [9]))

/-- C6 counterexample: the specification's scenario taken literally — the
program that pushes 10 and 0 then divides, with nothing after the
`Divide` — hits the zero divisor but the VM faults building the traceback
(`line_at` indexes past the end of the line table), so no traceback is
produced. -/
theorem C6_counterexample :
    parse divNoEndSrc = .ok divNoEndProg ∧
    vm_run divNoEndProg [] 10 = .fault := by
  exact ⟨by decide, by decide⟩

/-- C1 (code bug): `Copy(n)` against a stack holding exactly `n` elements
(fewer than the required `n+1`) passes the mistaken `len < n` check and
faults computing `stack.len() - 1 - n`, instead of reporting
`StackUnderflow`; with at least `n+1` elements it behaves as specified. -/
theorem C1_copy_fault_at_exact_n :
    exec_inst (vmSt []) (Instruction.Copy 0) = .fault ∧
    exec_inst (vmSt [42]) (Instruction.Copy 1) = .fault ∧
    exec_inst (vmSt [42, 7]) (Instruction.Copy 1) =
      .ok { vmSt [42, 7] with stack := [7, 42, 7] } := by
  exact ⟨by decide, by decide, by decide⟩

/-- C7 (confirmed): `Add`, `Subtract` and `Multiply` pop the right then
the left operand and push `left op right` under wrapping 64-bit
two's-complement arithmetic, succeeding for every pair of operands. -/
theorem C7_wrapping_arith (s : VmState) (l r : Int) (rest : List Int)
    (h : s.stack = r :: l :: rest) :
    exec_inst s Instruction.Add = .ok { s with stack := wrap64 (l + r) :: rest } ∧
    exec_inst s Instruction.Subtract = .ok { s with stack := wrap64 (l - r) :: rest } ∧
    exec_inst s Instruction.Multiply = .ok { s with stack := wrap64 (l * r) :: rest } := by
  refine ⟨?_, ?_, ?_⟩ <;> simp [exec_inst, h]

/-- C7 witness: `2^62 + 2^62` wraps to `-2^63` with no error. -/
theorem C7_witness :
    exec_inst (vmSt [2 ^ 62, 2 ^ 62]) Instruction.Add =
      .ok { vmSt [2 ^ 62, 2 ^ 62] with stack := wrap64 (2 ^ 62 + 2 ^ 62) :: [] } ∧
    wrap64 (2 ^ 62 + 2 ^ 62) = i64Min :=
  ⟨(C7_wrapping_arith (vmSt [2 ^ 62, 2 ^ 62]) (2 ^ 62) (2 ^ 62) [] (by decide)).1,
    by decide⟩

/-- C8 (corrected): `Divide` and `Modulo` pop the right operand first and
check it for zero before popping the left operand, so: a zero at the top
of the stack always yields `ZeroDivision` (even on a one-element stack,
where the specification's reading would give `StackUnderflow`); an empty
stack, or a one-element stack with nonzero top, yields `StackUnderflow`;
every operand pair with nonzero divisor other than `left = -2^63`,
`right = -1` succeeds with the truncating quotient/remainder; and that
remaining pair is a host-level overflow fault, not a success. -/
theorem C8_div_mod_semantics (s : VmState) (l r : Int) (rest : List Int)
    (hfr : frames_ok s) :
    (s.stack = 0 :: rest →
      (∃ tb, exec_inst s Instruction.Divide = .err tb { s with stack := rest } ∧
        tb.reason = .ZeroDivision) ∧
      (∃ tb, exec_inst s Instruction.Modulo = .err tb { s with stack := rest } ∧
        tb.reason = .ZeroDivision)) ∧
    (s.stack = r :: l :: rest → r ≠ 0 → ¬(l = i64Min ∧ r = -1) →
      exec_inst s Instruction.Divide = .ok { s with stack := Int.tdiv l r :: rest } ∧
      exec_inst s Instruction.Modulo = .ok { s with stack := Int.tmod l r :: rest }) ∧
    (s.stack = [] →
      (∃ tb, exec_inst s Instruction.Divide = .err tb s ∧ tb.reason = .StackUnderflow) ∧
      (∃ tb, exec_inst s Instruction.Modulo = .err tb s ∧ tb.reason = .StackUnderflow)) ∧
    (s.stack = [r] → r ≠ 0 →
      (∃ tb, exec_inst s Instruction.Divide = .err tb { s with stack := [] } ∧
        tb.reason = .StackUnderflow) ∧
      (∃ tb, exec_inst s Instruction.Modulo = .err tb { s with stack := [] } ∧
        tb.reason = .StackUnderflow)) ∧
    (s.stack = r :: l :: rest → l = i64Min → r = -1 →
      exec_inst s Instruction.Divide = .fault ∧
      exec_inst s Instruction.Modulo = .fault) := by
  refine ⟨?_, ?_, ?_, ?_, ?_⟩
  · intro hs
    obtain ⟨tb, htb, hr⟩ := rerr_total (s := { s with stack := rest }) .ZeroDivision hfr
    constructor
    · exact ⟨tb, by simp [exec_inst, hs, htb], hr⟩
    · exact ⟨tb, by simp [exec_inst, hs, htb], hr⟩
  · intro hs hr0 hmin
    constructor
    · simp [exec_inst, hs, hr0, hmin]
    · simp [exec_inst, hs, hr0, hmin]
  · intro hs
    obtain ⟨tb, htb, hr⟩ := rerr_total (s := s) .StackUnderflow hfr
    constructor
    · exact ⟨tb, by simp [exec_inst, hs, htb], hr⟩
    · exact ⟨tb, by simp [exec_inst, hs, htb], hr⟩
  · intro hs hr0
    obtain ⟨tb, htb, hr⟩ := rerr_total (s := { s with stack := [] }) .StackUnderflow hfr
    constructor
    · exact ⟨tb, by simp [exec_inst, hs, hr0, htb], hr⟩
    · exact ⟨tb, by simp [exec_inst, hs, hr0, htb], hr⟩
  · intro hs hl hr
    subst hl hr
    constructor
    · simp [exec_inst, hs]
    · simp [exec_inst, hs]

/-- C8 witness: `7 / 2` and `7 % 2` with a valid frame stack succeed with
the truncating results. -/
theorem C8_witness :
    exec_inst (vmSt [2, 7]) Instruction.Divide =
      .ok { vmSt [2, 7] with stack := Int.tdiv 7 2 :: [] } ∧
    exec_inst (vmSt [2, 7]) Instruction.Modulo =
      .ok { vmSt [2, 7] with stack := Int.tmod 7 2 :: [] } :=
  (C8_div_mod_semantics (vmSt [2, 7]) 7 2 [] (by unfold frames_ok; decide)).2.1
    (by decide) (by decide) (by decide)

/-- C8 counterexample: dividing `-2^63` by `-1` (divisor nonzero) is a
host-level overflow fault, not a success, refuting "for every pair of
operands with a nonzero divisor — including left = -2^63 with right = -1 —
the instruction succeeds". -/
theorem C8_counterexample :
    exec_inst (vmSt [-1, i64Min]) Instruction.Divide = .fault ∧
    exec_inst (vmSt [-1, i64Min]) Instruction.Modulo = .fault := by
  exact ⟨by decide, by decide⟩

/-- C10 (confirmed): when the current frame's program counter equals the
instruction count, the next fetch indexes past the end of the instruction
list and the run faults — it neither terminates normally nor yields a
traceback; in particular the empty program, and a program whose last
instruction is a reached `Push`, both fault. -/
theorem C10_pc_past_end_faults :
    (∀ (fuel : Nat) (s : VmState) (f : CallFrame) (fs : List CallFrame),
      s.call_stack = f :: fs → f.pc = s.program.instructions.length →
      run_loop (fuel + 1) s = .fault) ∧
    vm_run trivProg [] 5 = .fault ∧
    vm_run ⟨[.Push 0], [1], [7], []⟩ [] 5 = .fault := by
  refine ⟨?_, by decide, by decide⟩
  intro fuel s f fs hcs hpc
  have hnone : s.program.instructions[f.pc]? = none :=
    List.getElem?_eq_none (by omega)
  have hstep : step s = .fault := by
    simp only [step, hcs, hnone]
  unfold run_loop
  rw [hstep]

/-- C10 witness: the general statement applied to the initial state over
the empty program. -/
theorem C10_witness : run_loop 1 (init_vm trivProg []) = .fault :=
  C10_pc_past_end_faults.1 0 (init_vm trivProg []) ⟨0, none⟩ [] rfl rfl

/-! ### Helper lemmas about the parser -/

theorem PRes.bind_def {α β : Type} (x : PRes α) (f : α → PRes β) :
    x >>= f = match x with | .ok a => f a | .err e => .err e | .spin => .spin := rfl

theorem PRes.pure_def {α : Type} (a : α) : (pure a : PRes α) = .ok a := rfl

theorem bind_ok {α β : Type} {x : PRes α} {f : α → PRes β} {b : β}
    (h : x >>= f = .ok b) : ∃ a, x = .ok a ∧ f a = .ok b := by
  rw [PRes.bind_def] at h
  split at h
  next a => exact ⟨a, rfl, h⟩
  next => exact absurd h (by simp)
  next => exact absurd h (by simp)

theorem checked_shl_one (x : Int) : checked_shl x 1 = some (wrap64 (x * 2)) := by
  simp [checked_shl]

theorem checked_shl_usize_one (x : Nat) :
    checked_shl_usize x 1 = some (x * 2 % 2 ^ 64) := by
  simp [checked_shl_usize]

theorem get_next_frame (st : PState) :
    (get_next st).program = st.program ∧ (get_next st).labels = st.labels := by
  unfold get_next
  split <;> exact ⟨rfl, rfl⟩

theorem get_next_two_frame {st : PState} {ts : Token × Token} {st' : PState}
    (h : get_next_two st = .ok (ts, st')) :
    st'.program = st.program ∧ st'.labels = st.labels := by
  unfold get_next_two at h
  dsimp only at h
  split at h
  next =>
    simp only [PRes.ok.injEq, Prod.mk.injEq] at h
    obtain ⟨-, rfl⟩ := h
    constructor
    · rw [(get_next_frame _).1, (get_next_frame _).1]
    · rw [(get_next_frame _).2, (get_next_frame _).2]
  next => exact absurd h (by simp)

theorem get_number_loop_frame :
    ∀ (fuel : Nat) {st : PState} {num v : Int} {st' : PState},
      get_number_loop fuel st num = .ok (v, st') →
      st'.program = st.program ∧ st'.labels = st.labels := by
  intro fuel
  induction fuel with
  | zero =>
    intro st num v st' h
    exact absurd h (by simp [get_number_loop])
  | succ fuel ih =>
    intro st num v st' h
    unfold get_number_loop at h
    simp only [checked_shl_one] at h
    split at h
    · obtain ⟨hp, hl⟩ := ih h
      exact ⟨hp.trans (get_next_frame st).1, hl.trans (get_next_frame st).2⟩
    · obtain ⟨hp, hl⟩ := ih h
      exact ⟨hp.trans (get_next_frame st).1, hl.trans (get_next_frame st).2⟩
    · simp only [PRes.ok.injEq, Prod.mk.injEq] at h
      obtain ⟨-, rfl⟩ := h
      exact get_next_frame st
    · exact absurd h (by simp)

theorem get_number_frame {st : PState} {v : Int} {st' : PState}
    (h : get_number st = .ok (v, st')) :
    st'.program = st.program ∧ st'.labels = st.labels := by
  unfold get_number at h
  split at h
  · obtain ⟨⟨n, s⟩, h1, h2⟩ := bind_ok h
    simp only [PRes.pure_def, PRes.ok.injEq, Prod.mk.injEq] at h2
    obtain ⟨-, rfl⟩ := h2
    obtain ⟨hp, hl⟩ := get_number_loop_frame _ h1
    exact ⟨hp.trans (get_next_frame st).1, hl.trans (get_next_frame st).2⟩
  · obtain ⟨⟨n, s⟩, h1, h2⟩ := bind_ok h
    simp only [PRes.pure_def, PRes.ok.injEq, Prod.mk.injEq] at h2
    obtain ⟨-, rfl⟩ := h2
    obtain ⟨hp, hl⟩ := get_number_loop_frame _ h1
    exact ⟨hp.trans (get_next_frame st).1, hl.trans (get_next_frame st).2⟩
  · exact absurd h (by simp)

theorem get_label_loop_frame :
    ∀ (fuel : Nat) {st : PState} {num v : Nat} {st' : PState},
      get_label_loop fuel st num = .ok (v, st') →
      st'.program = st.program ∧ st'.labels = st.labels := by
  intro fuel
  induction fuel with
  | zero =>
    intro st num v st' h
    exact absurd h (by simp [get_label_loop])
  | succ fuel ih =>
    intro st num v st' h
    unfold get_label_loop at h
    simp only [checked_shl_usize_one] at h
    split at h
    · obtain ⟨hp, hl⟩ := ih h
      exact ⟨hp.trans (get_next_frame st).1, hl.trans (get_next_frame st).2⟩
    · obtain ⟨hp, hl⟩ := ih h
      exact ⟨hp.trans (get_next_frame st).1, hl.trans (get_next_frame st).2⟩
    · simp only [PRes.ok.injEq, Prod.mk.injEq] at h
      obtain ⟨-, rfl⟩ := h
      exact get_next_frame st
    · exact absurd h (by simp)

theorem get_label_frame {st : PState} {v : Nat} {st' : PState}
    (h : get_label st = .ok (v, st')) :
    st'.program = st.program ∧ st'.labels = st.labels :=
  get_label_loop_frame _ h

/-- C3 (code bug): the number literal `+` then bit 1 then 63 zero bits —
a bit sequence that does not fit in a signed 64-bit integer — parses
successfully into the sign-flipped value `-2^63` instead of failing with
`LiteralOverflow`; indeed the bit loop can never produce a
`LiteralOverflow` error, because `checked_shl` fails only for shift
amounts of at least 64 and the parser always shifts by 1. -/
theorem C3_overflowing_literal_parses :
    parse c3src = .ok ⟨[.Push 0], [2], [i64Min], []⟩ ∧
    ∀ (fuel : Nat) (st : PState) (num : Int) (e : ParseError),
      get_number_loop fuel st num = .err e → e.kind ≠ .LiteralOverflow := by
  refine ⟨by decide, ?_⟩
  intro fuel
  induction fuel with
  | zero =>
    intro st num e h
    exact absurd h (by simp [get_number_loop])
  | succ fuel ih =>
    intro st num e h
    unfold get_number_loop at h
    simp only [checked_shl_one] at h
    split at h
    · exact ih _ _ _ h
    · exact ih _ _ _ h
    · exact absurd h (by simp)
    · simp only [PRes.err.injEq] at h
      subst h
      simp [perror]

theorem stream_wf_cons {l : Nat} {t : Token} {l2 : Nat} {r : List (Token × Nat)} :
    stream_wf l ((t, l2) :: r) = true ↔
      l2 = (if t = Token.Newline then l + 1 else l) ∧ stream_wf l2 r = true := by
  by_cases hc : l2 = (if t = Token.Newline then l + 1 else l)
  · simp [stream_wf, hc]
  · simp [stream_wf, hc]

theorem get_next_wf {st : PState} (h : stream_wf st.line st.rest = true) :
    stream_wf (get_next st).line (get_next st).rest = true ∧
    (get_next st).prev_line_no = lookahead_line (get_next st) := by
  match hr : st.rest with
  | [] =>
    have h1 : get_next st = { st with prev_line_no := st.line, curr := none } := by
      unfold get_next
      rw [hr]
    rw [h1]
    exact ⟨h, by simp [lookahead_line]⟩
  | (t, l) :: r =>
    have h1 : get_next st =
        { st with prev_line_no := st.line, curr := some t, rest := r, line := l } := by
      unfold get_next
      rw [hr]
    have hsw : stream_wf st.line ((t, l) :: r) = true := hr ▸ h
    have hc : l = (if t = Token.Newline then st.line + 1 else st.line) := by
      by_cases hcc : l = (if t = Token.Newline then st.line + 1 else st.line)
      · exact hcc
      · rw [show stream_wf st.line ((t, l) :: r) = false by simp [stream_wf, hcc]] at hsw
        cases hsw
    have hw : stream_wf l r = true := by
      rw [show stream_wf st.line ((t, l) :: r) = stream_wf l r by
        simp [stream_wf, ← hc]] at hsw
      exact hsw
    rw [h1]
    refine ⟨hw, ?_⟩
    unfold lookahead_line
    cases t with
    | Newline =>
      simp at hc ⊢
      omega
    | Space =>
      simp at hc ⊢
      omega
    | Tab =>
      simp at hc ⊢
      omega

theorem get_next_two_wf {st : PState} {ts : Token × Token} {st2 : PState}
    (hwf : stream_wf st.line st.rest = true) (h : get_next_two st = .ok (ts, st2)) :
    stream_wf st2.line st2.rest = true ∧ st2.prev_line_no = lookahead_line st2 := by
  unfold get_next_two at h
  dsimp only at h
  split at h
  next =>
    simp only [PRes.ok.injEq, Prod.mk.injEq] at h
    obtain ⟨-, rfl⟩ := h
    exact get_next_wf (get_next_wf hwf).1
  next => exact absurd h (by simp)

theorem get_number_loop_wf :
    ∀ (fuel : Nat) {st : PState} {num v : Int} {st2 : PState},
      stream_wf st.line st.rest = true →
      get_number_loop fuel st num = .ok (v, st2) →
      stream_wf st2.line st2.rest = true ∧ st2.prev_line_no = lookahead_line st2 := by
  intro fuel
  induction fuel with
  | zero =>
    intro st num v st2 _ h
    exact absurd h (by simp [get_number_loop])
  | succ fuel ih =>
    intro st num v st2 hwf h
    unfold get_number_loop at h
    simp only [checked_shl_one] at h
    split at h
    · exact ih (get_next_wf hwf).1 h
    · exact ih (get_next_wf hwf).1 h
    · simp only [PRes.ok.injEq, Prod.mk.injEq] at h
      obtain ⟨-, rfl⟩ := h
      exact get_next_wf hwf
    · exact absurd h (by simp)

theorem get_number_wf {st : PState} {v : Int} {st2 : PState}
    (hwf : stream_wf st.line st.rest = true) (h : get_number st = .ok (v, st2)) :
    stream_wf st2.line st2.rest = true ∧ st2.prev_line_no = lookahead_line st2 := by
  unfold get_number at h
  split at h
  · obtain ⟨⟨n, s⟩, h1, h2⟩ := bind_ok h
    simp only [PRes.pure_def, PRes.ok.injEq, Prod.mk.injEq] at h2
    obtain ⟨-, rfl⟩ := h2
    exact get_number_loop_wf _ (get_next_wf hwf).1 h1
  · obtain ⟨⟨n, s⟩, h1, h2⟩ := bind_ok h
    simp only [PRes.pure_def, PRes.ok.injEq, Prod.mk.injEq] at h2
    obtain ⟨-, rfl⟩ := h2
    exact get_number_loop_wf _ (get_next_wf hwf).1 h1
  · exact absurd h (by simp)

theorem get_label_loop_wf :
    ∀ (fuel : Nat) {st : PState} {num v : Nat} {st2 : PState},
      stream_wf st.line st.rest = true →
      get_label_loop fuel st num = .ok (v, st2) →
      stream_wf st2.line st2.rest = true ∧ st2.prev_line_no = lookahead_line st2 := by
  intro fuel
  induction fuel with
  | zero =>
    intro st num v st2 _ h
    exact absurd h (by simp [get_label_loop])
  | succ fuel ih =>
    intro st num v st2 hwf h
    unfold get_label_loop at h
    simp only [checked_shl_usize_one] at h
    split at h
    · exact ih (get_next_wf hwf).1 h
    · exact ih (get_next_wf hwf).1 h
    · simp only [PRes.ok.injEq, Prod.mk.injEq] at h
      obtain ⟨-, rfl⟩ := h
      exact get_next_wf hwf
    · exact absurd h (by simp)

theorem get_label_wf {st : PState} {v : Nat} {st2 : PState}
    (hwf : stream_wf st.line st.rest = true) (h : get_label st = .ok (v, st2)) :
    stream_wf st2.line st2.rest = true ∧ st2.prev_line_no = lookahead_line st2 :=
  get_label_loop_wf _ hwf h

theorem add_const_frame (p : Program) (c : Int) :
    (p.add_const c).2.instructions = p.instructions ∧
    (p.add_const c).2.line_nos = p.line_nos ∧
    (p.add_const c).2.sub_labels = p.sub_labels := by
  unfold Program.add_const
  split <;> exact ⟨rfl, rfl, rfl⟩

theorem emit_lines (st : PState) (i : Instruction) :
    (emit st i).program.line_nos = st.program.line_nos ++ [st.prev_line_no] := rfl

theorem get_stack_inst_lines {st st9 : PState} (hwf : stream_wf st.line st.rest = true)
    (h : get_stack_inst st = .ok st9) :
    st9.program.line_nos = st.program.line_nos ++ [lookahead_line st9] ∧
    stream_wf st9.line st9.rest = true := by
  unfold get_stack_inst at h
  split at h
  · obtain ⟨⟨num, st1⟩, h1, h2⟩ := bind_ok h
    dsimp only at h2
    obtain ⟨hwf1, hprev1⟩ := get_number_wf (get_next_wf hwf).1 h1
    have hfr := get_number_frame h1
    cases hac : st1.program.add_const num with
    | mk idx prog =>
      rw [hac] at h2
      dsimp only at h2
      simp only [PRes.pure_def, PRes.ok.injEq] at h2
      subst h2
      have hlines : prog.line_nos = st.program.line_nos := by
        have h5 := (add_const_frame st1.program num).2.1
        rw [hac] at h5
        rw [h5, hfr.1, (get_next_frame st).1]
      refine ⟨?_, hwf1⟩
      show prog.line_nos ++ [st1.prev_line_no] =
        st.program.line_nos ++ [lookahead_line st1]
      rw [hlines, hprev1]
  · obtain ⟨⟨⟨f, s⟩, st1⟩, h1, h2⟩ := bind_ok h
    dsimp only at h2
    obtain ⟨hwf1, hprev1⟩ := get_next_two_wf hwf h1
    have hfr1 := get_next_two_frame h1
    split at h2
    · obtain ⟨⟨num, st2⟩, h3, h4⟩ := bind_ok h2
      dsimp only at h4
      simp only [PRes.pure_def, PRes.ok.injEq] at h4
      subst h4
      obtain ⟨hwf2, hprev2⟩ := get_number_wf hwf1 h3
      have hfr2 := get_number_frame h3
      refine ⟨?_, hwf2⟩
      show st2.program.line_nos ++ [st2.prev_line_no] =
        st.program.line_nos ++ [lookahead_line st2]
      rw [hfr2.1, hfr1.1, hprev2]
    · obtain ⟨⟨num, st2⟩, h3, h4⟩ := bind_ok h2
      dsimp only at h4
      simp only [PRes.pure_def, PRes.ok.injEq] at h4
      subst h4
      obtain ⟨hwf2, hprev2⟩ := get_number_wf hwf1 h3
      have hfr2 := get_number_frame h3
      refine ⟨?_, hwf2⟩
      show st2.program.line_nos ++ [st2.prev_line_no] =
        st.program.line_nos ++ [lookahead_line st2]
      rw [hfr2.1, hfr1.1, hprev2]
    · simp only [PRes.pure_def, PRes.ok.injEq] at h2
      subst h2
      refine ⟨?_, hwf1⟩
      show st1.program.line_nos ++ [st1.prev_line_no] =
        st.program.line_nos ++ [lookahead_line st1]
      rw [hfr1.1, hprev1]
    · simp only [PRes.pure_def, PRes.ok.injEq] at h2
      subst h2
      refine ⟨?_, hwf1⟩
      show st1.program.line_nos ++ [st1.prev_line_no] =
        st.program.line_nos ++ [lookahead_line st1]
      rw [hfr1.1, hprev1]
    · simp only [PRes.pure_def, PRes.ok.injEq] at h2
      subst h2
      refine ⟨?_, hwf1⟩
      show st1.program.line_nos ++ [st1.prev_line_no] =
        st.program.line_nos ++ [lookahead_line st1]
      rw [hfr1.1, hprev1]
    · exact absurd h2 (by simp)

theorem get_arith_inst_lines {st st9 : PState} (hwf : stream_wf st.line st.rest = true)
    (h : get_arith_inst st = .ok st9) :
    st9.program.line_nos = st.program.line_nos ++ [lookahead_line st9] ∧
    stream_wf st9.line st9.rest = true := by
  unfold get_arith_inst at h
  obtain ⟨⟨⟨f, s⟩, st1⟩, h1, h2⟩ := bind_ok h
  dsimp only at h2
  obtain ⟨hwf1, hprev1⟩ := get_next_two_wf hwf h1
  have hfr1 := get_next_two_frame h1
  split at h2 <;>
    [skip; skip; skip; skip; skip; exact absurd h2 (by simp)] <;>
    (simp only [PRes.pure_def, PRes.ok.injEq] at h2
     subst h2
     refine ⟨?_, hwf1⟩
     show st1.program.line_nos ++ [st1.prev_line_no] =
       st.program.line_nos ++ [lookahead_line st1]
     rw [hfr1.1, hprev1])

theorem get_heap_inst_lines {st st9 : PState} (hwf : stream_wf st.line st.rest = true)
    (h : get_heap_inst st = .ok st9) :
    st9.program.line_nos = st.program.line_nos ++ [lookahead_line st9] ∧
    stream_wf st9.line st9.rest = true := by
  unfold get_heap_inst at h
  split at h <;>
    [skip; skip; exact absurd h (by simp)] <;>
    (simp only [PRes.ok.injEq] at h
     subst h
     refine ⟨?_, (get_next_wf hwf).1⟩
     show (get_next st).program.line_nos ++ [(get_next st).prev_line_no] =
       st.program.line_nos ++ [lookahead_line (get_next st)]
     rw [(get_next_frame st).1, (get_next_wf hwf).2])

theorem get_io_inst_lines {st st9 : PState} (hwf : stream_wf st.line st.rest = true)
    (h : get_io_inst st = .ok st9) :
    st9.program.line_nos = st.program.line_nos ++ [lookahead_line st9] ∧
    stream_wf st9.line st9.rest = true := by
  unfold get_io_inst at h
  obtain ⟨⟨⟨f, s⟩, st1⟩, h1, h2⟩ := bind_ok h
  dsimp only at h2
  obtain ⟨hwf1, hprev1⟩ := get_next_two_wf hwf h1
  have hfr1 := get_next_two_frame h1
  split at h2 <;>
    [skip; skip; skip; skip; exact absurd h2 (by simp)] <;>
    (simp only [PRes.pure_def, PRes.ok.injEq] at h2
     subst h2
     refine ⟨?_, hwf1⟩
     show st1.program.line_nos ++ [st1.prev_line_no] =
       st.program.line_nos ++ [lookahead_line st1]
     rw [hfr1.1, hprev1])

theorem get_flow_inst_lines {st st9 : PState} (hwf : stream_wf st.line st.rest = true)
    (h : get_flow_inst st = .ok st9) :
    (∃ tags, st9.program.line_nos = st.program.line_nos ++ tags ∧
      ∀ t ∈ tags, t = lookahead_line st9) ∧
    stream_wf st9.line st9.rest = true := by
  unfold get_flow_inst at h
  obtain ⟨⟨⟨f, s⟩, st1⟩, h1, h2⟩ := bind_ok h
  dsimp only at h2
  obtain ⟨hwf1, hprev1⟩ := get_next_two_wf hwf h1
  have hfr1 := get_next_two_frame h1
  split at h2
  · obtain ⟨⟨label, st2⟩, h3, h4⟩ := bind_ok h2
    dsimp only at h4
    simp only [PRes.pure_def, PRes.ok.injEq] at h4
    subst h4
    obtain ⟨hwf2, hprev2⟩ := get_label_wf hwf1 h3
    have hfr2 := get_label_frame h3
    refine ⟨⟨[], ?_, by simp⟩, hwf2⟩
    show st2.program.line_nos = st.program.line_nos ++ []
    rw [hfr2.1, hfr1.1, List.append_nil]
  · obtain ⟨⟨label, st2⟩, h3, h4⟩ := bind_ok h2
    dsimp only at h4
    simp only [PRes.pure_def, PRes.ok.injEq] at h4
    subst h4
    obtain ⟨hwf2, hprev2⟩ := get_label_wf hwf1 h3
    have hfr2 := get_label_frame h3
    refine ⟨⟨[st2.prev_line_no], ?_, ?_⟩, hwf2⟩
    · show st2.program.line_nos ++ [st2.prev_line_no] =
        st.program.line_nos ++ [st2.prev_line_no]
      rw [hfr2.1, hfr1.1]
    · intro t ht
      rw [List.mem_singleton] at ht
      subst ht
      show st2.prev_line_no = lookahead_line st2
      exact hprev2
  · obtain ⟨⟨label, st2⟩, h3, h4⟩ := bind_ok h2
    dsimp only at h4
    simp only [PRes.pure_def, PRes.ok.injEq] at h4
    subst h4
    obtain ⟨hwf2, hprev2⟩ := get_label_wf hwf1 h3
    have hfr2 := get_label_frame h3
    refine ⟨⟨[st2.prev_line_no], ?_, ?_⟩, hwf2⟩
    · show st2.program.line_nos ++ [st2.prev_line_no] =
        st.program.line_nos ++ [st2.prev_line_no]
      rw [hfr2.1, hfr1.1]
    · intro t ht
      rw [List.mem_singleton] at ht
      subst ht
      show st2.prev_line_no = lookahead_line st2
      exact hprev2
  · obtain ⟨⟨label, st2⟩, h3, h4⟩ := bind_ok h2
    dsimp only at h4
    simp only [PRes.pure_def, PRes.ok.injEq] at h4
    subst h4
    obtain ⟨hwf2, hprev2⟩ := get_label_wf hwf1 h3
    have hfr2 := get_label_frame h3
    refine ⟨⟨[st2.prev_line_no], ?_, ?_⟩, hwf2⟩
    · show st2.program.line_nos ++ [st2.prev_line_no] =
        st.program.line_nos ++ [st2.prev_line_no]
      rw [hfr2.1, hfr1.1]
    · intro t ht
      rw [List.mem_singleton] at ht
      subst ht
      show st2.prev_line_no = lookahead_line st2
      exact hprev2
  · obtain ⟨⟨label, st2⟩, h3, h4⟩ := bind_ok h2
    dsimp only at h4
    simp only [PRes.pure_def, PRes.ok.injEq] at h4
    subst h4
    obtain ⟨hwf2, hprev2⟩ := get_label_wf hwf1 h3
    have hfr2 := get_label_frame h3
    refine ⟨⟨[st2.prev_line_no], ?_, ?_⟩, hwf2⟩
    · show st2.program.line_nos ++ [st2.prev_line_no] =
        st.program.line_nos ++ [st2.prev_line_no]
      rw [hfr2.1, hfr1.1]
    · intro t ht
      rw [List.mem_singleton] at ht
      subst ht
      show st2.prev_line_no = lookahead_line st2
      exact hprev2
  · simp only [PRes.pure_def, PRes.ok.injEq] at h2
    subst h2
    refine ⟨⟨[st1.prev_line_no], ?_, ?_⟩, hwf1⟩
    · show st1.program.line_nos ++ [st1.prev_line_no] =
        st.program.line_nos ++ [st1.prev_line_no]
      rw [hfr1.1]
    · intro t ht
      rw [List.mem_singleton] at ht
      subst ht
      show st1.prev_line_no = lookahead_line st1
      exact hprev1
  · simp only [PRes.pure_def, PRes.ok.injEq] at h2
    subst h2
    refine ⟨⟨[st1.prev_line_no], ?_, ?_⟩, hwf1⟩
    · show st1.program.line_nos ++ [st1.prev_line_no] =
        st.program.line_nos ++ [st1.prev_line_no]
      rw [hfr1.1]
    · intro t ht
      rw [List.mem_singleton] at ht
      subst ht
      show st1.prev_line_no = lookahead_line st1
      exact hprev1
  · exact absurd h2 (by simp)

/-- C3 witness: the loop's non-overflow error path, applied at end of
input, yields `UnexpectedEof`, which is not `LiteralOverflow`. -/
theorem C3_witness :
    (⟨ErrorKind.UnexpectedEof, 1⟩ : ParseError).kind ≠ ErrorKind.LiteralOverflow :=
  C3_overflowing_literal_parses.2 1 (init_pstate []) 0 ⟨ErrorKind.UnexpectedEof, 1⟩
    (by decide)

/-- C4 (corrected): every instruction the parser emits in one iteration
of the main loop is tagged not with the line of the instruction's first
token but with the line of the parser's lookahead token at the moment of
emission — the first token *after* the instruction (the final line
counter at end of input).  The two coincide only when the instruction
consumed no line-terminator token. -/
theorem C4_line_tags {st st' : PState} (hwf : stream_wf st.line st.rest = true)
    (h : parse_iter st = .ok st') :
    ∃ tags, st'.program.line_nos = st.program.line_nos ++ tags ∧
      ∀ t ∈ tags, t = lookahead_line st' := by
  unfold parse_iter at h
  dsimp only at h
  split at h
  · obtain ⟨hl, -⟩ := get_stack_inst_lines (get_next_wf hwf).1 h
    rw [(get_next_frame st).1] at hl
    exact ⟨[lookahead_line st'], hl, by simp⟩
  · split at h
    · obtain ⟨hl, -⟩ :=
        get_arith_inst_lines (get_next_wf (get_next_wf hwf).1).1 h
      rw [(get_next_frame (get_next st)).1, (get_next_frame st).1] at hl
      exact ⟨[lookahead_line st'], hl, by simp⟩
    · obtain ⟨hl, -⟩ :=
        get_heap_inst_lines (get_next_wf (get_next_wf hwf).1).1 h
      rw [(get_next_frame (get_next st)).1, (get_next_frame st).1] at hl
      exact ⟨[lookahead_line st'], hl, by simp⟩
    · obtain ⟨hl, -⟩ :=
        get_io_inst_lines (get_next_wf (get_next_wf hwf).1).1 h
      rw [(get_next_frame (get_next st)).1, (get_next_frame st).1] at hl
      exact ⟨[lookahead_line st'], hl, by simp⟩
    · exact absurd h (by simp)
  · obtain ⟨⟨tags, hl, ht⟩, -⟩ := get_flow_inst_lines (get_next_wf hwf).1 h
    rw [(get_next_frame st).1] at hl
    exact ⟨tags, hl, ht⟩
  · simp only [PRes.ok.injEq] at h
    subst h
    exact ⟨[], by simp, by simp⟩

/-- C4 witness: the amended statement applied to the single-instruction
source `S S S L`. -/
theorem C4_witness :
    ∃ tags, c4Out.program.line_nos = c4St.program.line_nos ++ tags ∧
      ∀ t ∈ tags, t = lookahead_line c4Out :=
  C4_line_tags (by decide) (by decide : parse_iter c4St = .ok c4Out)

/-- C4 counterexample: in the source `S S S L` (bytes 32 32 32 10) the
`Push` instruction's first token sits on line 1, yet the emitted
instruction is tagged with line 2 — the line after the literal's
terminator — refuting the claim that the tag equals the first token's
line. -/
theorem C4_counterexample :
    tokenize c4Src 1 = [(.Space, 1), (.Space, 1), (.Space, 1), (.Newline, 2)] ∧
    parse c4Src = .ok c9P ∧ c9P.line_nos = [2] ∧ (2 : Nat) ≠ 1 := by
  exact ⟨by decide, by decide, by decide, by decide⟩

/-! ### The parse-loop invariant and the backpatch pass -/

theorem position_none {l : List Int} {c : Int} (h : position l c = none) : c ∉ l := by
  induction l with
  | nil => simp
  | cons x rest ih =>
    unfold position at h
    split at h
    next => cases h
    next hx =>
      rw [Option.map_eq_none'] at h
      simp only [List.mem_cons, not_or]
      exact ⟨fun hcx => hx hcx.symm, ih h⟩

theorem position_spec {c : Int} :
    ∀ {l : List Int} {i : Nat}, position l c = some i →
      l[i]? = some c ∧ ∀ j < i, l[j]? ≠ some c := by
  intro l
  induction l with
  | nil => intro i h; cases h
  | cons x rest ih =>
    intro i h
    unfold position at h
    split at h
    next hx =>
      simp only [Option.some.injEq] at h
      subst h
      exact ⟨by simp [hx], by omega⟩
    next hx =>
      rw [Option.map_eq_some'] at h
      obtain ⟨i2, hi2, rfl⟩ := h
      obtain ⟨h1, h2⟩ := ih hi2
      refine ⟨by simpa using h1, ?_⟩
      intro j hj
      cases j with
      | zero =>
        intro hcx
        rw [List.getElem?_cons_zero] at hcx
        exact hx (Option.some.inj hcx)
      | succ j =>
        simp only [List.getElem?_cons_succ]
        exact h2 j (by omega)

theorem add_const_spec (p : Program) (c : Int) :
    (p.add_const c).2.constants[(p.add_const c).1]? = some c ∧
    (∀ j < (p.add_const c).1, (p.add_const c).2.constants[j]? ≠ some c) ∧
    p.constants.length ≤ (p.add_const c).2.constants.length ∧
    (p.add_const c).1 < (p.add_const c).2.constants.length ∧
    (p.constants.Nodup → (p.add_const c).2.constants.Nodup) := by
  unfold Program.add_const
  cases hp : position p.constants c with
  | some idx =>
    dsimp only
    obtain ⟨h1, h2⟩ := position_spec hp
    have hlt : idx < p.constants.length := (List.getElem?_eq_some.mp h1).1
    exact ⟨h1, h2, le_refl _, hlt, fun h => h⟩
  | none =>
    dsimp only
    have hnm := position_none hp
    refine ⟨List.getElem?_concat_length _ _, ?_, by simp, by simp, ?_⟩
    · intro j hj
      rw [List.getElem?_append_left hj]
      intro hc
      exact hnm (List.getElem?_mem hc)
    · intro hnd
      rw [← List.concat_eq_append]
      exact hnd.concat hnm

theorem assocInsert_fresh {m : List (Nat × Nat)} {k : Nat} (h : k ∉ m.map Prod.fst)
    (v : Nat) : assocInsert m k v = m ++ [(k, v)] := by
  induction m with
  | nil => rfl
  | cons p rest ih =>
    obtain ⟨k2, v2⟩ := p
    simp only [List.map_cons, List.mem_cons, not_or] at h
    unfold assocInsert
    rw [if_neg (fun hk => h.1 hk.symm), ih h.2, List.cons_append]

theorem inv_tokens {st st2 : PState} (hp : st2.program = st.program)
    (hl : st2.labels = st.labels) (inv : parser_inv st) : parser_inv st2 := by
  unfold parser_inv at *
  rw [hp, hl]
  exact inv

theorem inv_emit {st : PState} (inv : parser_inv st) (i : Instruction)
    (hpush : ∀ idx, i = Instruction.Push idx → idx < st.program.constants.length)
    (_hjf : jump_family i = false) : parser_inv (emit st i) := by
  obtain ⟨h1, h2, h3, h4, h5⟩ := inv
  refine ⟨h1, ?_, ?_, h4, ?_⟩
  · intro idx hmem
    rcases List.mem_append.mp hmem with hm | hm
    · exact h2 idx hm
    · rw [List.mem_singleton] at hm
      exact hpush idx hm.symm
  · show (st.program.instructions ++ [i]).length =
      (st.program.line_nos ++ [st.prev_line_no]).length
    simp [h3]
  · intro e he
    obtain ⟨inst, hinst, hjf2⟩ := h5 e he
    refine ⟨inst, ?_, hjf2⟩
    show (st.program.instructions ++ [i])[e.1]? = some inst
    rw [List.getElem?_append_left (List.getElem?_eq_some.mp hinst).1]
    exact hinst

theorem retarget_not_push {inst : Instruction} (h : jump_family inst = true)
    (pc idx : Nat) : retarget inst pc ≠ Instruction.Push idx := by
  cases inst <;> simp_all [jump_family, retarget]

theorem inv_flow_emit {st : PState} (inv : parser_inv st) (label : Nat)
    (i : Instruction) (hjf : jump_family i = true) :
    parser_inv (emit { st with labels := { st.labels with
      inst_list :=
        assocInsert st.labels.inst_list st.program.instructions.length label } } i) := by
  obtain ⟨h1, h2, h3, h4, h5⟩ := inv
  have hfresh : st.program.instructions.length ∉ st.labels.inst_list.map Prod.fst := by
    intro hmem
    rw [List.mem_map] at hmem
    obtain ⟨e, he, hfst⟩ := hmem
    obtain ⟨inst, hinst, -⟩ := h5 e he
    have := (List.getElem?_eq_some.mp hinst).1
    omega
  have hins : assocInsert st.labels.inst_list st.program.instructions.length label =
      st.labels.inst_list ++ [(st.program.instructions.length, label)] :=
    assocInsert_fresh hfresh label
  refine ⟨h1, ?_, ?_, ?_, ?_⟩
  · intro idx hmem
    rcases List.mem_append.mp hmem with hm | hm
    · exact h2 idx hm
    · rw [List.mem_singleton] at hm
      subst hm
      simp [jump_family] at hjf
  · show (st.program.instructions ++ [i]).length =
      (st.program.line_nos ++ [st.prev_line_no]).length
    simp [h3]
  · show ((assocInsert st.labels.inst_list st.program.instructions.length label).map
      Prod.fst).Nodup
    have hmap : (st.labels.inst_list ++
        [(st.program.instructions.length, label)]).map Prod.fst =
        st.labels.inst_list.map Prod.fst ++ [st.program.instructions.length] := by
      simp
    rw [hins, hmap, ← List.concat_eq_append]
    exact h4.concat hfresh
  · intro e he
    rw [show (emit { st with labels := { st.labels with
        inst_list := assocInsert st.labels.inst_list
          st.program.instructions.length label } } i).labels.inst_list =
      assocInsert st.labels.inst_list st.program.instructions.length label from rfl,
      hins] at he
    rcases List.mem_append.mp he with hm | hm
    · obtain ⟨inst, hinst, hjf2⟩ := h5 e hm
      refine ⟨inst, ?_, hjf2⟩
      show (st.program.instructions ++ [i])[e.1]? = some inst
      rw [List.getElem?_append_left (List.getElem?_eq_some.mp hinst).1]
      exact hinst
    · rw [List.mem_singleton] at hm
      subst hm
      refine ⟨i, ?_, hjf⟩
      show (st.program.instructions ++ [i])[st.program.instructions.length]? = some i
      exact List.getElem?_concat_length _ _

theorem inv_add_const {st : PState} (inv : parser_inv st) (c : Int) :
    parser_inv { st with program := (st.program.add_const c).2 } ∧
    (st.program.add_const c).1 < (st.program.add_const c).2.constants.length := by
  obtain ⟨h1, h2, h3, h4, h5⟩ := inv
  obtain ⟨-, -, hle, hlt, hnd⟩ := add_const_spec st.program c
  obtain ⟨hi, hl, -⟩ := add_const_frame st.program c
  refine ⟨⟨hnd h1, ?_, ?_, h4, ?_⟩, hlt⟩
  · intro idx hmem
    have hmem2 : Instruction.Push idx ∈ (st.program.add_const c).2.instructions := hmem
    rw [hi] at hmem2
    show idx < (st.program.add_const c).2.constants.length
    exact lt_of_lt_of_le (h2 idx hmem2) hle
  · show (st.program.add_const c).2.instructions.length =
      (st.program.add_const c).2.line_nos.length
    rw [hi, hl]
    exact h3
  · intro e he
    obtain ⟨inst, hinst, hjf⟩ := h5 e he
    refine ⟨inst, ?_, hjf⟩
    show (st.program.add_const c).2.instructions[e.1]? = some inst
    rw [hi]
    exact hinst

theorem get_stack_inst_inv {st st9 : PState} (inv : parser_inv st)
    (h : get_stack_inst st = .ok st9) : parser_inv st9 := by
  unfold get_stack_inst at h
  split at h
  · obtain ⟨⟨num, st1⟩, h1, h2⟩ := bind_ok h
    dsimp only at h2
    have inv1 : parser_inv st1 :=
      inv_tokens ((get_number_frame h1).1.trans (get_next_frame st).1)
        ((get_number_frame h1).2.trans (get_next_frame st).2) inv
    cases hac : st1.program.add_const num with
    | mk idx prog =>
      rw [hac] at h2
      dsimp only at h2
      simp only [PRes.pure_def, PRes.ok.injEq] at h2
      subst h2
      obtain ⟨inv2, hlt⟩ := inv_add_const inv1 num
      rw [hac] at inv2 hlt
      exact inv_emit inv2 (Instruction.Push idx)
        (fun idx2 he => by cases he; exact hlt) (by simp [jump_family])
  · obtain ⟨⟨⟨f, s⟩, st1⟩, h1, h2⟩ := bind_ok h
    dsimp only at h2
    have inv1 : parser_inv st1 :=
      inv_tokens (get_next_two_frame h1).1 (get_next_two_frame h1).2 inv
    split at h2
    · obtain ⟨⟨num, st2⟩, h3, h4⟩ := bind_ok h2
      dsimp only at h4
      simp only [PRes.pure_def, PRes.ok.injEq] at h4
      subst h4
      have inv2 : parser_inv st2 :=
        inv_tokens (get_number_frame h3).1 (get_number_frame h3).2 inv1
      exact inv_emit inv2 _ (fun idx2 he => by cases he) (by simp [jump_family])
    · obtain ⟨⟨num, st2⟩, h3, h4⟩ := bind_ok h2
      dsimp only at h4
      simp only [PRes.pure_def, PRes.ok.injEq] at h4
      subst h4
      have inv2 : parser_inv st2 :=
        inv_tokens (get_number_frame h3).1 (get_number_frame h3).2 inv1
      exact inv_emit inv2 _ (fun idx2 he => by cases he) (by simp [jump_family])
    · simp only [PRes.pure_def, PRes.ok.injEq] at h2
      subst h2
      exact inv_emit inv1 _ (fun idx2 he => by cases he) (by simp [jump_family])
    · simp only [PRes.pure_def, PRes.ok.injEq] at h2
      subst h2
      exact inv_emit inv1 _ (fun idx2 he => by cases he) (by simp [jump_family])
    · simp only [PRes.pure_def, PRes.ok.injEq] at h2
      subst h2
      exact inv_emit inv1 _ (fun idx2 he => by cases he) (by simp [jump_family])
    · exact absurd h2 (by simp)

theorem get_arith_inst_inv {st st9 : PState} (inv : parser_inv st)
    (h : get_arith_inst st = .ok st9) : parser_inv st9 := by
  unfold get_arith_inst at h
  obtain ⟨⟨⟨f, s⟩, st1⟩, h1, h2⟩ := bind_ok h
  dsimp only at h2
  have inv1 : parser_inv st1 :=
    inv_tokens (get_next_two_frame h1).1 (get_next_two_frame h1).2 inv
  split at h2 <;>
    [skip; skip; skip; skip; skip; exact absurd h2 (by simp)] <;>
    (simp only [PRes.pure_def, PRes.ok.injEq] at h2
     subst h2
     exact inv_emit inv1 _ (fun idx2 he => by cases he) (by simp [jump_family]))

theorem get_heap_inst_inv {st st9 : PState} (inv : parser_inv st)
    (h : get_heap_inst st = .ok st9) : parser_inv st9 := by
  unfold get_heap_inst at h
  split at h <;>
    [skip; skip; exact absurd h (by simp)] <;>
    (simp only [PRes.ok.injEq] at h
     subst h
     exact inv_emit
       (inv_tokens (get_next_frame st).1 (get_next_frame st).2 inv) _
       (fun idx2 he => by cases he) (by simp [jump_family]))

theorem get_io_inst_inv {st st9 : PState} (inv : parser_inv st)
    (h : get_io_inst st = .ok st9) : parser_inv st9 := by
  unfold get_io_inst at h
  obtain ⟨⟨⟨f, s⟩, st1⟩, h1, h2⟩ := bind_ok h
  dsimp only at h2
  have inv1 : parser_inv st1 :=
    inv_tokens (get_next_two_frame h1).1 (get_next_two_frame h1).2 inv
  split at h2 <;>
    [skip; skip; skip; skip; exact absurd h2 (by simp)] <;>
    (simp only [PRes.pure_def, PRes.ok.injEq] at h2
     subst h2
     exact inv_emit inv1 _ (fun idx2 he => by cases he) (by simp [jump_family]))

theorem get_flow_inst_inv {st st9 : PState} (inv : parser_inv st)
    (h : get_flow_inst st = .ok st9) : parser_inv st9 := by
  unfold get_flow_inst at h
  obtain ⟨⟨⟨f, s⟩, st1⟩, h1, h2⟩ := bind_ok h
  dsimp only at h2
  have inv1 : parser_inv st1 :=
    inv_tokens (get_next_two_frame h1).1 (get_next_two_frame h1).2 inv
  split at h2
  · obtain ⟨⟨label, st2⟩, h3, h4⟩ := bind_ok h2
    dsimp only at h4
    simp only [PRes.pure_def, PRes.ok.injEq] at h4
    subst h4
    have inv2 : parser_inv st2 :=
      inv_tokens (get_label_frame h3).1 (get_label_frame h3).2 inv1
    obtain ⟨h1i, h2i, h3i, h4i, h5i⟩ := inv2
    exact ⟨h1i, h2i, h3i, h4i, h5i⟩
  · obtain ⟨⟨label, st2⟩, h3, h4⟩ := bind_ok h2
    dsimp only at h4
    simp only [PRes.pure_def, PRes.ok.injEq] at h4
    subst h4
    exact inv_flow_emit
      (inv_tokens (get_label_frame h3).1 (get_label_frame h3).2 inv1) label _
      (by simp [jump_family])
  · obtain ⟨⟨label, st2⟩, h3, h4⟩ := bind_ok h2
    dsimp only at h4
    simp only [PRes.pure_def, PRes.ok.injEq] at h4
    subst h4
    exact inv_flow_emit
      (inv_tokens (get_label_frame h3).1 (get_label_frame h3).2 inv1) label _
      (by simp [jump_family])
  · obtain ⟨⟨label, st2⟩, h3, h4⟩ := bind_ok h2
    dsimp only at h4
    simp only [PRes.pure_def, PRes.ok.injEq] at h4
    subst h4
    exact inv_flow_emit
      (inv_tokens (get_label_frame h3).1 (get_label_frame h3).2 inv1) label _
      (by simp [jump_family])
  · obtain ⟨⟨label, st2⟩, h3, h4⟩ := bind_ok h2
    dsimp only at h4
    simp only [PRes.pure_def, PRes.ok.injEq] at h4
    subst h4
    exact inv_flow_emit
      (inv_tokens (get_label_frame h3).1 (get_label_frame h3).2 inv1) label _
      (by simp [jump_family])
  · simp only [PRes.pure_def, PRes.ok.injEq] at h2
    subst h2
    exact inv_emit inv1 _ (fun idx2 he => by cases he) (by simp [jump_family])
  · simp only [PRes.pure_def, PRes.ok.injEq] at h2
    subst h2
    exact inv_emit inv1 _ (fun idx2 he => by cases he) (by simp [jump_family])
  · exact absurd h2 (by simp)

theorem parse_iter_inv {st st9 : PState} (inv : parser_inv st)
    (h : parse_iter st = .ok st9) : parser_inv st9 := by
  unfold parse_iter at h
  dsimp only at h
  split at h
  · exact get_stack_inst_inv
      (inv_tokens (get_next_frame st).1 (get_next_frame st).2 inv) h
  · split at h
    · exact get_arith_inst_inv
        (inv_tokens ((get_next_frame _).1.trans (get_next_frame st).1)
          ((get_next_frame _).2.trans (get_next_frame st).2) inv) h
    · exact get_heap_inst_inv
        (inv_tokens ((get_next_frame _).1.trans (get_next_frame st).1)
          ((get_next_frame _).2.trans (get_next_frame st).2) inv) h
    · exact get_io_inst_inv
        (inv_tokens ((get_next_frame _).1.trans (get_next_frame st).1)
          ((get_next_frame _).2.trans (get_next_frame st).2) inv) h
    · exact absurd h (by simp)
  · exact get_flow_inst_inv
      (inv_tokens (get_next_frame st).1 (get_next_frame st).2 inv) h
  · simp only [PRes.ok.injEq] at h
    subst h
    exact inv

theorem parse_loop_inv :
    ∀ (fuel : Nat) {st st9 : PState}, parser_inv st →
      parse_loop fuel st = .ok st9 → parser_inv st9 := by
  intro fuel
  induction fuel with
  | zero =>
    intro st st9 _ h
    exact absurd h (by simp [parse_loop])
  | succ fuel ih =>
    intro st st9 inv h
    unfold parse_loop at h
    split at h
    · simp only [PRes.ok.injEq] at h
      subst h
      exact inv
    · obtain ⟨st1, h1, h2⟩ := bind_ok h
      exact ih (parse_iter_inv inv h1) h2

theorem parse_init_inv (src : List Nat) : parser_inv (get_next (init_pstate src)) := by
  refine inv_tokens (get_next_frame _).1 (get_next_frame _).2 ?_
  refine ⟨List.nodup_nil, ?_, rfl, List.nodup_nil, ?_⟩
  · intro idx h
    cases h
  · intro e he
    cases he

theorem parse_state_inv {src : List Nat} {L : PState}
    (h : parse_state src = .ok L) : parser_inv L :=
  parse_loop_inv _ (parse_init_inv src) h

theorem patch_step_instructions {prog : Program} {idx : Nat} {inst : Instruction}
    {pc label : Nat} :
    (if is_call inst then
        { prog with
          instructions := prog.instructions.set idx (retarget inst pc),
          sub_labels := assocInsert
            ({ prog with
               instructions :=
                 prog.instructions.set idx (retarget inst pc) }).sub_labels pc label }
      else
        { prog with
          instructions := prog.instructions.set idx (retarget inst pc) }).instructions =
      prog.instructions.set idx (retarget inst pc) := by
  split <;> rfl

theorem patch_step_frame {prog : Program} {idx : Nat} {inst : Instruction}
    {pc label : Nat} :
    (if is_call inst then
        { prog with
          instructions := prog.instructions.set idx (retarget inst pc),
          sub_labels := assocInsert
            ({ prog with
               instructions :=
                 prog.instructions.set idx (retarget inst pc) }).sub_labels pc label }
      else
        { prog with
          instructions := prog.instructions.set idx (retarget inst pc) }).constants =
      prog.constants ∧
    (if is_call inst then
        { prog with
          instructions := prog.instructions.set idx (retarget inst pc),
          sub_labels := assocInsert
            ({ prog with
               instructions :=
                 prog.instructions.set idx (retarget inst pc) }).sub_labels pc label }
      else
        { prog with
          instructions := prog.instructions.set idx (retarget inst pc) }).line_nos =
      prog.line_nos := by
  constructor <;> (split <;> rfl)

theorem patch_preserves {pc_map : List (Nat × Nat)} :
    ∀ {entries : List (Nat × Nat)} {prog p : Program},
      patch_jumps_loop entries pc_map prog = .ok p →
      p.constants = prog.constants ∧ p.line_nos = prog.line_nos ∧
      (∀ j, j ∉ entries.map Prod.fst → p.instructions[j]? = prog.instructions[j]?) ∧
      (∀ idx, Instruction.Push idx ∈ p.instructions →
        Instruction.Push idx ∈ prog.instructions) ∧
      p.instructions.length = prog.instructions.length := by
  intro entries
  induction entries with
  | nil =>
    intro prog p h
    simp only [patch_jumps_loop, PatchResult.ok.injEq] at h
    subst h
    exact ⟨rfl, rfl, fun _ _ => rfl, fun _ hm => hm, rfl⟩
  | cons e rest ih =>
    intro prog p h
    obtain ⟨idx, label⟩ := e
    unfold patch_jumps_loop at h
    split at h
    next => exact absurd h (by simp)
    next inst hinst =>
      split at h
      next =>
        split at h
        next => exact absurd h (by simp)
        next => exact absurd h (by simp)
      next pc hpc =>
        split at h
        next hjf =>
          dsimp only at h
          obtain ⟨hc, hl, hpr, hpush, hlen⟩ := ih h
          refine ⟨hc.trans patch_step_frame.1, hl.trans patch_step_frame.2, ?_, ?_, ?_⟩
          · intro j hj
            simp only [List.map_cons, List.mem_cons, not_or] at hj
            rw [hpr j hj.2, patch_step_instructions,
              List.getElem?_set_ne (fun hx => hj.1 hx.symm)]
          · intro idx2 hmem
            have := hpush idx2 hmem
            rw [patch_step_instructions] at this
            rcases List.mem_or_eq_of_mem_set this with hm | hm
            · exact hm
            · exact absurd hm.symm (retarget_not_push hjf pc idx2)
          · rw [hlen, patch_step_instructions, List.length_set]
        next => exact absurd h (by simp)

theorem patch_ok_entry {pc_map : List (Nat × Nat)} :
    ∀ {entries : List (Nat × Nat)} {prog p : Program},
      (entries.map Prod.fst).Nodup →
      (∀ e ∈ entries, ∃ inst, prog.instructions[e.1]? = some inst ∧
        jump_family inst = true) →
      patch_jumps_loop entries pc_map prog = .ok p →
      ∀ e ∈ entries, ∃ pc inst, assocGet pc_map e.2 = some pc ∧
        prog.instructions[e.1]? = some inst ∧
        p.instructions[e.1]? = some (retarget inst pc) := by
  intro entries
  induction entries with
  | nil =>
    intro prog p _ _ _ e he
    cases he
  | cons e0 rest ih =>
    intro prog p hnd hval h e he
    obtain ⟨idx, label⟩ := e0
    unfold patch_jumps_loop at h
    split at h
    next => exact absurd h (by simp)
    next inst hinst =>
      split at h
      next =>
        split at h
        next => exact absurd h (by simp)
        next => exact absurd h (by simp)
      next pc hpc =>
        split at h
        next hjf =>
          dsimp only at h
          simp only [List.map_cons, List.nodup_cons] at hnd
          have hval2 : ∀ e2 ∈ rest, ∃ inst2,
              ((if is_call inst then
                  { prog with
                    instructions := prog.instructions.set idx (retarget inst pc),
                    sub_labels := assocInsert
                      ({ prog with
                         instructions :=
                           prog.instructions.set idx (retarget inst pc) }).sub_labels
                      pc label }
                else
                  { prog with
                    instructions :=
                      prog.instructions.set idx (retarget inst pc) }).instructions)[e2.1]? =
                some inst2 ∧ jump_family inst2 = true := by
            intro e2 he2
            obtain ⟨inst2, hinst2, hjf2⟩ := hval e2 (List.mem_cons_of_mem _ he2)
            refine ⟨inst2, ?_, hjf2⟩
            rw [patch_step_instructions, List.getElem?_set_ne ?_]
            · exact hinst2
            · intro hx
              exact hnd.1 (hx ▸ List.mem_map_of_mem Prod.fst he2)
          rcases List.mem_cons.mp he with rfl | hm
          · refine ⟨pc, inst, hpc, hinst, ?_⟩
            obtain ⟨-, -, hpr, -, -⟩ := patch_preserves h
            rw [hpr idx (by simpa using hnd.1), patch_step_instructions,
              List.getElem?_set_self (List.getElem?_eq_some.mp hinst).1]
          · obtain ⟨pc2, inst2, hpc2, hinst2, hres⟩ := ih hnd.2 hval2 h e hm
            refine ⟨pc2, inst2, hpc2, ?_, hres⟩
            rw [patch_step_instructions, List.getElem?_set_ne ?_] at hinst2
            · exact hinst2
            · intro hx
              exact hnd.1 (hx ▸ List.mem_map_of_mem Prod.fst hm)
        next => exact absurd h (by simp)

theorem patch_err {pc_map : List (Nat × Nat)} :
    ∀ {entries : List (Nat × Nat)} {prog : Program},
      (entries.map Prod.fst).Nodup →
      (∀ e ∈ entries, ∃ inst, prog.instructions[e.1]? = some inst ∧
        jump_family inst = true) →
      prog.instructions.length = prog.line_nos.length →
      (∃ e ∈ entries, assocGet pc_map e.2 = none) →
      ∃ e ∈ entries, assocGet pc_map e.2 = none ∧ ∃ line,
        prog.line_nos[e.1]? = some line ∧
        patch_jumps_loop entries pc_map prog = .err ⟨.InvalidLabel, line⟩ := by
  intro entries
  induction entries with
  | nil =>
    intro prog _ _ _ hex
    obtain ⟨e, he, -⟩ := hex
    cases he
  | cons e0 rest ih =>
    intro prog hnd hval hlen hex
    obtain ⟨idx, label⟩ := e0
    obtain ⟨inst, hinst, hjf⟩ := hval (idx, label) (List.mem_cons_self _ _)
    simp only [List.map_cons, List.nodup_cons] at hnd
    by_cases hl : assocGet pc_map label = none
    · have hlt : idx < prog.line_nos.length := by
        have := (List.getElem?_eq_some.mp hinst).1
        omega
      refine ⟨(idx, label), List.mem_cons_self _ _, hl, prog.line_nos[idx], ?_, ?_⟩
      · exact List.getElem?_eq_getElem hlt
      · unfold patch_jumps_loop
        rw [hinst, hl, List.getElem?_eq_getElem hlt]
    · obtain ⟨pc, hpc⟩ := Option.ne_none_iff_exists'.mp hl
      have hval2 : ∀ e2 ∈ rest, ∃ inst2,
          ((if is_call inst then
              { prog with
                instructions := prog.instructions.set idx (retarget inst pc),
                sub_labels := assocInsert
                  ({ prog with
                     instructions :=
                       prog.instructions.set idx (retarget inst pc) }).sub_labels
                  pc label }
            else
              { prog with
                instructions :=
                  prog.instructions.set idx (retarget inst pc) }).instructions)[e2.1]? =
            some inst2 ∧ jump_family inst2 = true := by
        intro e2 he2
        obtain ⟨inst2, hinst2, hjf2⟩ := hval e2 (List.mem_cons_of_mem _ he2)
        refine ⟨inst2, ?_, hjf2⟩
        rw [patch_step_instructions, List.getElem?_set_ne ?_]
        · exact hinst2
        · intro hx
          exact hnd.1 (hx ▸ List.mem_map_of_mem Prod.fst he2)
      have hlen2 :
          ((if is_call inst then
              { prog with
                instructions := prog.instructions.set idx (retarget inst pc),
                sub_labels := assocInsert
                  ({ prog with
                     instructions :=
                       prog.instructions.set idx (retarget inst pc) }).sub_labels
                  pc label }
            else
              { prog with
                instructions :=
                  prog.instructions.set idx (retarget inst pc) }).instructions).length =
            ((if is_call inst then
              { prog with
                instructions := prog.instructions.set idx (retarget inst pc),
                sub_labels := assocInsert
                  ({ prog with
                     instructions :=
                       prog.instructions.set idx (retarget inst pc) }).sub_labels
                  pc label }
            else
              { prog with
                instructions :=
                  prog.instructions.set idx (retarget inst pc) }).line_nos).length := by
        rw [patch_step_instructions, patch_step_frame.2, List.length_set]
        exact hlen
      have hex2 : ∃ e2 ∈ rest, assocGet pc_map e2.2 = none := by
        obtain ⟨e2, he2, hn2⟩ := hex
        rcases List.mem_cons.mp he2 with rfl | hm
        · exact absurd hn2 (by rw [hpc]; simp)
        · exact ⟨e2, hm, hn2⟩
      obtain ⟨e2, he2, hn2, line, hline, herr⟩ := ih hnd.2 hval2 hlen2 hex2
      refine ⟨e2, List.mem_cons_of_mem _ he2, hn2, line, ?_, ?_⟩
      · rw [patch_step_frame.2] at hline
        exact hline
      · unfold patch_jumps_loop
        simp only [hinst, hpc, hjf, if_true]
        exact herr

/-- C5 (confirmed): for every program that parses successfully, the
resolved target of every recorded jump/call site equals the program
counter the label map holds for the referenced label — the
emitted-instruction count recorded at its declaration, the last
declaration winning because a later `insert` overwrites an earlier one —
and if any referenced label was never declared, parsing instead fails
with `InvalidLabel` carrying the line recorded for a referencing
instruction. -/
theorem C5_jump_resolution :
    (∀ (src : List Nat) (L : PState) (p : Program),
      parse_state src = .ok L → parse src = .ok p →
      ∀ e ∈ L.labels.inst_list,
        ∃ pc inst, assocGet L.labels.pc_map e.2 = some pc ∧
          L.program.instructions[e.1]? = some inst ∧
          p.instructions[e.1]? = some (retarget inst pc)) ∧
    (∀ (src : List Nat) (L : PState),
      parse_state src = .ok L →
      (∃ e ∈ L.labels.inst_list, assocGet L.labels.pc_map e.2 = none) →
      ∃ e ∈ L.labels.inst_list, assocGet L.labels.pc_map e.2 = none ∧
        ∃ line, L.program.line_nos[e.1]? = some line ∧
          parse src = .err ⟨.InvalidLabel, line⟩) ∧
    (∀ (m : List (Nat × Nat)) (k v : Nat), assocGet (assocInsert m k v) k = some v) := by
  refine ⟨?_, ?_, ?_⟩
  · intro src L p hps hp e he
    obtain ⟨-, -, -, h4, h5⟩ := parse_state_inv hps
    unfold parse at hp
    rw [hps] at hp
    dsimp only at hp
    cases hpj : patch_jumps_loop L.labels.inst_list L.labels.pc_map L.program with
    | err e2 => simp only [hpj] at hp; cases hp
    | fault => simp only [hpj] at hp; cases hp
    | ok q =>
      simp only [hpj, ParseResult.ok.injEq] at hp
      subst hp
      exact patch_ok_entry h4 h5 hpj e he
  · intro src L hps hex
    obtain ⟨-, -, h3, h4, h5⟩ := parse_state_inv hps
    obtain ⟨e, he, hn, line, hline, herr⟩ := patch_err h4 h5 h3 hex
    refine ⟨e, he, hn, line, hline, ?_⟩
    unfold parse
    rw [hps]
    dsimp only
    rw [herr]
  · intro m k v
    induction m with
    | nil => simp [assocInsert, assocGet]
    | cons p2 rest ih =>
      obtain ⟨k2, v2⟩ := p2
      unfold assocInsert
      split
      next => simp [assocGet]
      next hk =>
        unfold assocGet
        rw [if_neg hk]
        exact ih

/-- C5 witness: in the source that declares label 0 at program counter 0
and then jumps to it, the recorded jump site resolves to target 0. -/
theorem C5_witness :
    ∃ pc inst, assocGet c5L.labels.pc_map 0 = some pc ∧
      c5L.program.instructions[0]? = some inst ∧
      c5P.instructions[0]? = some (retarget inst pc) :=
  C5_jump_resolution.1 c5Src c5L c5P (by decide) (by decide) (0, 0) (by decide)

/-- C9 (confirmed): every successfully parsed program has a
duplicate-free constant pool, and every `Push` it contains carries an
index inside the pool, so the VM's constant fetch for `Push` succeeds;
moreover interning returns the index of the first pool entry with the
interned value (no earlier entry holds it). -/
theorem C9_constant_pool_unique :
    (∀ (src : List Nat) (p : Program), parse src = .ok p →
      p.constants.Nodup ∧
      ∀ idx, Instruction.Push idx ∈ p.instructions → (p.constants[idx]?).isSome) ∧
    (∀ (pr : Program) (c : Int),
      (pr.add_const c).2.constants[(pr.add_const c).1]? = some c ∧
      ∀ j < (pr.add_const c).1, (pr.add_const c).2.constants[j]? ≠ some c) := by
  constructor
  · intro src p h
    unfold parse at h
    cases hps : parse_state src with
    | spin => simp only [hps] at h; cases h
    | err e => simp only [hps] at h; cases h
    | ok L =>
      rw [hps] at h
      dsimp only at h
      obtain ⟨h1, h2, -, -, -⟩ := parse_state_inv hps
      cases hpj : patch_jumps_loop L.labels.inst_list L.labels.pc_map L.program with
      | err e => simp only [hpj] at h; cases h
      | fault => simp only [hpj] at h; cases h
      | ok q =>
        simp only [hpj, ParseResult.ok.injEq] at h
        subst h
        obtain ⟨hc, -, -, hpush, -⟩ := patch_preserves hpj
        constructor
        · rw [hc]
          exact h1
        · intro idx hmem
          have hlt := h2 idx (hpush idx hmem)
          rw [hc, List.getElem?_eq_getElem hlt]
          rfl
  · intro pr c
    obtain ⟨ha, hb, -, -, -⟩ := add_const_spec pr c
    exact ⟨ha, hb⟩

/-- C9 witness: the parsed program of `S S S L` has a duplicate-free pool
and its `Push 0` fetches a constant. -/
theorem C9_witness :
    c9P.constants.Nodup ∧ (c9P.constants[0]?).isSome :=
  ⟨(C9_constant_pool_unique.1 c4Src c9P (by decide)).1,
    (C9_constant_pool_unique.1 c4Src c9P (by decide)).2 0 (by decide)⟩

end WhitespaceVM
